import Mathlib

/-!
Verification of the baseline-fixer repository: a shallow embedding of
src/fix_vertical_metrics.py, src/api/fix-font.py and
src/scripts/ttx-to-woff2-watch.py, with theorems settling the frozen
claims about them.

Python byte strings and text strings are both embedded as `List Nat`
(byte values, respectively Unicode code points).  Machine-level font
numbers are embedded as `Int` (fontTools exposes them as Python ints).
-/

/-- Bytes of a Python bytes object, or code points of a str. -/
abbrev Bytes := List Nat

/-- Code points of a Lean string literal, used to embed Python literals. -/
def strBytes (s : String) : Bytes := s.data.map Char.toNat

/-- ASCII whitespace recognised by Python bytes.strip(): space, tab, LF, VT, FF, CR. -/
def wsByte (b : Nat) : Bool := b = 32 || b = 9 || b = 10 || b = 11 || b = 12 || b = 13

/-- Unicode whitespace recognised by Python str.strip() (str.isspace code points). -/
def uniSpace (c : Nat) : Bool :=
  (9 ≤ c && c ≤ 13) || c = 32 || (28 ≤ c && c ≤ 31) || c = 133 || c = 160 ||
  c = 5760 || (8192 ≤ c && c ≤ 8202) || c = 8232 || c = 8233 || c = 8239 ||
  c = 8287 || c = 12288

/-- Strip matching bytes from the left end, as Python lstrip does. -/
def lstripBy (p : Nat → Bool) (l : Bytes) : Bytes := l.dropWhile p

/-- Strip matching bytes from the right end, as Python rstrip does. -/
def rstripBy (p : Nat → Bool) (l : Bytes) : Bytes := (l.reverse.dropWhile p).reverse

/-- Python bytes.strip() with no argument: ASCII whitespace, both ends. -/
def pyStripBytes (l : Bytes) : Bytes := rstripBy wsByte (lstripBy wsByte l)

/-- Python str.strip() with no argument: Unicode whitespace, both ends. -/
def pyStripStr (l : Bytes) : Bytes := rstripBy uniSpace (lstripBy uniSpace l)

/-- Python rstrip with argument CR LF dash dash, i.e. the byte set 13, 10, 45. -/
def rstripCrLfDash (l : Bytes) : Bytes := rstripBy (fun b => b = 13 || b = 10 || b = 45) l

/-- Python strip with the two quote characters, code points 34 and 39, both ends. -/
def stripQuotes (l : Bytes) : Bytes :=
  rstripBy (fun b => b = 34 || b = 39) (lstripBy (fun b => b = 34 || b = 39) l)

/-- Python str.lower restricted to the ASCII letters; all header text handled by
the program in the claims is ASCII. -/
def asciiLower (l : Bytes) : Bytes := l.map (fun b => if 65 ≤ b && b ≤ 90 then b + 32 else b)

/-- Split a list at the first occurrence of a nonempty separator, returning the
pieces before and after it; none if the separator does not occur.  This is the
single search step underlying the Python split used by the source. -/
def splitAtFirst (sep : Bytes) : Bytes → Option (Bytes × Bytes)
  | [] => none
  | a :: l =>
    if sep.isPrefixOf (a :: l) then some ([], (a :: l).drop sep.length)
    else
      match splitAtFirst sep l with
      | none => none
      | some pr => some (a :: pr.1, pr.2)

/-- Fueled worker for `splitSeq`; the fuel is always chosen large enough. -/
def splitSeqAux (sep : Bytes) : Nat → Bytes → List Bytes
  | 0, l => [l]
  | Nat.succ fuel, l =>
    match splitAtFirst sep l with
    | none => [l]
    | some pr => pr.1 :: splitSeqAux sep fuel pr.2

/-- Python split with a nonempty separator: splits at every occurrence, left to right. -/
def splitSeq (sep l : Bytes) : List Bytes := splitSeqAux sep (l.length + 1) l

/-- Python substring containment test (for nonempty needles, as used by the source). -/
def containsSeq (pat l : Bytes) : Bool := (splitAtFirst pat l).isSome

/-- Insert into a Python-dict model: replace the value of an existing key, else append. -/
def dictInsert {α : Type} (k : Bytes) (v : α) : List (Bytes × α) → List (Bytes × α)
  | [] => [(k, v)]
  | e :: rest => if e.1 = k then (e.1, v) :: rest else e :: dictInsert k v rest

/-- Lookup in a Python-dict model. -/
def dictGet {α : Type} : List (Bytes × α) → Bytes → Option α
  | [], _ => none
  | e :: rest, k => if e.1 = k then some e.2 else dictGet rest k

/-- Is a byte a UTF-8 continuation byte. -/
def contByte (b : Nat) : Bool := 128 ≤ b && b ≤ 191

/-- Fueled worker for `utf8DecodeIgnore`; each step consumes at least one byte,
so fuel equal to the length suffices. -/
def utf8DecodeIgnoreAux : Nat → Bytes → Bytes
  | 0, _ => []
  | _, [] => []
  | Nat.succ fuel, b1 :: rest =>
    if b1 < 128 then b1 :: utf8DecodeIgnoreAux fuel rest
    else if 194 ≤ b1 && b1 ≤ 223 then
      match rest with
      | [] => []
      | b2 :: r2 =>
        if contByte b2 then ((b1 - 192) * 64 + (b2 - 128)) :: utf8DecodeIgnoreAux fuel r2
        else utf8DecodeIgnoreAux fuel rest
    else if 224 ≤ b1 && b1 ≤ 239 then
      match rest with
      | [] => []
      | b2 :: r2 =>
        if (if b1 = 224 then 160 ≤ b2 && b2 ≤ 191
            else if b1 = 237 then 128 ≤ b2 && b2 ≤ 159
            else contByte b2) then
          match r2 with
          | [] => []
          | b3 :: r3 =>
            if contByte b3 then
              ((b1 - 224) * 4096 + (b2 - 128) * 64 + (b3 - 128)) :: utf8DecodeIgnoreAux fuel r3
            else utf8DecodeIgnoreAux fuel r2
        else utf8DecodeIgnoreAux fuel rest
    else if 240 ≤ b1 && b1 ≤ 244 then
      match rest with
      | [] => []
      | b2 :: r2 =>
        if (if b1 = 240 then 144 ≤ b2 && b2 ≤ 191
            else if b1 = 244 then 128 ≤ b2 && b2 ≤ 143
            else contByte b2) then
          match r2 with
          | [] => []
          | b3 :: r3 =>
            if contByte b3 then
              match r3 with
              | [] => []
              | b4 :: r4 =>
                if contByte b4 then
                  ((b1 - 240) * 262144 + (b2 - 128) * 4096 + (b3 - 128) * 64 + (b4 - 128)) ::
                    utf8DecodeIgnoreAux fuel r4
                else utf8DecodeIgnoreAux fuel r3
            else utf8DecodeIgnoreAux fuel r2
        else utf8DecodeIgnoreAux fuel rest
    else utf8DecodeIgnoreAux fuel rest

/-- Python bytes.decode with utf-8 and errors ignore: decode valid sequences,
drop the bytes of invalid ones (CPython skips the maximal valid prefix of an
ill-formed sequence). -/
def utf8DecodeIgnore (l : Bytes) : Bytes := utf8DecodeIgnoreAux l.length l

/-- UTF-8 encoding of one code point (Python str.encode). -/
def utf8EncodeChar (c : Nat) : Bytes :=
  if c ≤ 127 then [c]
  else if c ≤ 2047 then [192 + c / 64, 128 + c % 64]
  else if c ≤ 65535 then [224 + c / 4096, 128 + (c / 64) % 64, 128 + c % 64]
  else [240 + c / 262144, 128 + (c / 4096) % 64, 128 + (c / 64) % 64, 128 + c % 64]

/-- UTF-8 encoding of a code-point sequence (Python str.encode). -/
def utf8Encode (l : Bytes) : Bytes := l.foldr (fun c acc => utf8EncodeChar c ++ acc) []

/-- Index of the last occurrence of a byte, if any. -/
def lastIdxOf (b : Nat) (l : Bytes) : Option Nat :=
  (l.foldl (fun st x => (st.1 + 1, if x = b then some st.1 else st.2))
    ((0 : Nat), (none : Option Nat))).2

/-- The root part of os.path.splitext (posixpath): split at the last dot of the
final component, except when the final component consists of leading dots only. -/
def splitextBase (p : Bytes) : Bytes :=
  match lastIdxOf 46 p with
  | none => p
  | some di =>
    let fi : Nat := match lastIdxOf 47 p with | none => 0 | some si => si + 1
    if fi ≤ di then
      if ((p.drop fi).take (di - fi)).all (fun b => b = 46) then p else p.take di
    else p

/-!  The font data model.

A loaded TTFont is embedded as a record of the tables the three source files
touch.  A glyf-table glyph carries optional bounds: fontTools glyph objects
without outlines have no yMax or yMin attribute, which the source probes with
hasattr; `bounds = some (yMax, yMin)` models a glyph having both attributes.
The hhea table is always present (both fix functions read it unconditionally,
and a font without it raises before any write, so it does not affect the
claims).  The OS/2 winAscent and winDescent legacy attributes are optional,
mirroring the hasattr probes in the module version. -/

structure HheaTable where
  ascent : Int
  descent : Int
  lineGap : Int
deriving DecidableEq

structure HeadTable where
  yMax : Int
  yMin : Int
deriving DecidableEq

structure Glyph where
  bounds : Option (Int × Int)
deriving DecidableEq

structure OS2Table where
  fsSelection : Nat
  sTypoAscender : Int
  sTypoDescender : Int
  sTypoLineGap : Int
  usWinAscent : Int
  usWinDescent : Int
  winAscent : Option Int
  winDescent : Option Int
deriving DecidableEq

structure Font where
  glyf : Option (List Glyph)
  head : Option HeadTable
  hhea : HheaTable
  os2 : Option OS2Table
  flavor : Option Bytes
deriving DecidableEq

/-- One iteration of the loop body over glyph bounds, yMax accumulator:
if ymax is None or glyph.yMax > ymax, take glyph.yMax. -/
def maxStep (acc : Option Int) (y : Int) : Option Int :=
  match acc with
  | none => some y
  | some m => if y > m then some y else some m

/-- One iteration of the loop body over glyph bounds, yMin accumulator:
if ymin is None or glyph.yMin < ymin, take glyph.yMin. -/
def minStep (acc : Option Int) (y : Int) : Option Int :=
  match acc with
  | none => some y
  | some m => if y < m then some y else some m

/-- The glyph loop body shared by get_font_ymax_ymin and find_ymax_ymin:
glyphs lacking the yMax and yMin attributes are skipped. -/
def boundsStep (acc : Option Int × Option Int) (g : Glyph) : Option Int × Option Int :=
  match g.bounds with
  | none => acc
  | some yb => (maxStep acc.1 yb.1, minStep acc.2 yb.2)

/-- get_font_ymax_ymin of src/fix_vertical_metrics.py: glyf outlines, then the
head table per missing field, then hhea per missing field. -/
def get_font_ymax_ymin (font : Font) : Int × Int :=
  let g := match font.glyf with
    | none => ((none : Option Int), (none : Option Int))
    | some gs => gs.foldl boundsStep (none, none)
  let ymax1 : Option Int := match font.head with
    | none => g.1
    | some h => match g.1 with | none => some h.yMax | some v => some v
  let ymin1 : Option Int := match font.head with
    | none => g.2
    | some h => match g.2 with | none => some h.yMin | some v => some v
  (ymax1.getD font.hhea.ascent, ymin1.getD font.hhea.descent)

/-- find_ymax_ymin of the inline fallback in src/api/fix-font.py: glyf outlines,
then hhea per missing field (no head-table fallback). -/
def find_ymax_ymin (font : Font) : Int × Int :=
  let g := match font.glyf with
    | none => ((none : Option Int), (none : Option Int))
    | some gs => gs.foldl boundsStep (none, none)
  (g.1.getD font.hhea.ascent, g.2.getD font.hhea.descent)

inductive FixError where
  | fileNotFoundError
  | valueError
  | typeError
deriving DecidableEq

/-- font.flavor = flavor if flavor else None. -/
def applyFlavor (flavor : Option Bytes) : Option Bytes :=
  match flavor with
  | none => none
  | some f => if f = [] then none else some f

/-- The head-table effect of TTFont.save with the default recalcBBoxes=True.
For TrueType-flavored fonts (glyf table present) maxp.recalc recomputes the
font bounding box from the glyph bounds with the same max/min accumulation as
the bounds scans, resets it to 0 when no glyph has bounds (the plus-or-minus
100000 sentinels of the source never survive for int16 glyph bounds), and
writes it into the head table before head compiles.  Fonts without a glyf
table keep their stored head values on save; real fonts always carry a head
table, the guard only keeps the model total. -/
def recalcHeadBBox (font : Font) : Font :=
  match font.glyf with
  | none => font
  | some gs =>
    match font.head with
    | none => font
    | some _ =>
      let acc := gs.foldl boundsStep (none, none)
      { font with head := some ⟨acc.1.getD 0, acc.2.getD 0⟩ }

/-- The saved output of fix_vertical_metrics in src/fix_vertical_metrics.py.
Raises ValueError when the OS/2 table is absent; otherwise: hhea ascent and
descent are rewritten to the recomputed bounds, fsSelection gets bit 8 set via
1 <<< 8, the sTypo fields mirror the rewritten hhea, the usWin fields take the
bounds with the descent sign-flipped, the legacy winAscent and winDescent
attributes are updated when present, and font.save (recalcBBoxes=True by
default) recalculates the head bounding box from the glyph bounds. -/
def fix_vertical_metrics (font : Font) (flavor : Option Bytes) : Except FixError Font :=
  match font.os2 with
  | none => Except.error FixError.valueError
  | some os2 =>
    let ym := get_font_ymax_ymin font
    let hhea2 : HheaTable := { ascent := ym.1, descent := ym.2, lineGap := font.hhea.lineGap }
    let uswd : Int := if ym.2 < 0 then -ym.2 else ym.2
    let os22 : OS2Table :=
      { fsSelection := os2.fsSelection ||| (1 <<< 8)
        sTypoAscender := hhea2.ascent
        sTypoDescender := hhea2.descent
        sTypoLineGap := hhea2.lineGap
        usWinAscent := ym.1
        usWinDescent := uswd
        winAscent := match os2.winAscent with | none => none | some _ => some ym.1
        winDescent := match os2.winDescent with | none => none | some _ => some uswd }
    Except.ok (recalcHeadBBox
      { font with hhea := hhea2, os2 := some os22, flavor := applyFlavor flavor })

/-- The in-memory table state the inline fallback fix_vertical_metrics of
src/api/fix-font.py reaches immediately before its save call.  It reads the
hhea values, raises ValueError without an OS/2 table, sets fsSelection bit 7
via 1 <<< 7, copies the original hhea values into the sTypo fields, recomputes
bounds with find_ymax_ymin for the usWin fields, and leaves the hhea table and
the font flavor attribute unchanged.  This state is never written to disk: the
save call, font.save(output_path, flavor=flavor), raises TypeError on every
call because TTFont.save has the signature save(file, reorderTables=True) and
accepts no flavor keyword; see fix_vertical_metrics_fallback_run. -/
def fix_vertical_metrics_fallback (font : Font) (_flavor : Option Bytes) : Except FixError Font :=
  match font.os2 with
  | none => Except.error FixError.valueError
  | some os2 =>
    let ym := find_ymax_ymin font
    let os22 : OS2Table :=
      { fsSelection := os2.fsSelection ||| (1 <<< 7)
        sTypoAscender := font.hhea.ascent
        sTypoDescender := font.hhea.descent
        sTypoLineGap := font.hhea.lineGap
        usWinAscent := ym.1
        usWinDescent := if ym.2 < 0 then -ym.2 else ym.2
        winAscent := os2.winAscent
        winDescent := os2.winDescent }
    Except.ok { font with os2 := some os22 }

/-- A filesystem model for the module entry point: paths to loaded fonts. -/
def Disk : Type := Bytes → Option Font

/-- fix_vertical_metrics at the file level: the os.path.exists guard raises
FileNotFoundError, loading and patching may raise ValueError, and only the
final font.save writes the output path.  An error carries the disk as it was
when the exception propagated; the save in the success branch is the only
write. -/
def fix_vertical_metrics_run (disk : Disk) (inputPath outputPath : Bytes)
    (flavor : Option Bytes) : Except (FixError × Disk) Disk :=
  match disk inputPath with
  | none => Except.error (FixError.fileNotFoundError, disk)
  | some font =>
    match fix_vertical_metrics font flavor with
    | Except.error e => Except.error (e, disk)
    | Except.ok font2 => Except.ok (fun p => if p = outputPath then some font2 else disk p)

/-- The inline fallback at the file level.  After patching the tables in
memory it calls font.save(output_path, flavor=flavor); TTFont.save takes no
flavor keyword, so the call raises TypeError on entry, before anything is
written: the fallback never produces an output file. -/
def fix_vertical_metrics_fallback_run (disk : Disk) (inputPath _outputPath : Bytes)
    (flavor : Option Bytes) : Except (FixError × Disk) Disk :=
  match disk inputPath with
  | none => Except.error (FixError.fileNotFoundError, disk)
  | some font =>
    match fix_vertical_metrics_fallback font flavor with
    | Except.error e => Except.error (e, disk)
    | Except.ok _ => Except.error (FixError.typeError, disk)


/-!  The multipart/form-data splitter of src/api/fix-font.py. -/

/-- The value stored for one form field by parse_multipart: the content bytes
after the trailing strip, the filename (None when no filename token was seen)
and the parsed headers dict. -/
structure MPValue where
  content : Bytes
  filename : Option Bytes
  headers : List (Bytes × Bytes)
deriving DecidableEq

/-- Everything after the first equals sign of a token (part.split with equals
and maxsplit 1, index 1); the token is known to contain an equals sign at every
use site, so the none branch is unreachable there. -/
def afterFirstEq (t : Bytes) : Bytes :=
  match splitAtFirst [61] t with
  | none => []
  | some pr => pr.2

/-- The headers loop of parse_multipart: split the decoded header block on CRLF,
keep lines containing a colon, key lowercased and both sides stripped. -/
def parseHeaders (hs : Bytes) : List (Bytes × Bytes) :=
  (splitSeq [13, 10] hs).foldl
    (fun d line =>
      match splitAtFirst [58] line with
      | none => d
      | some pr => dictInsert (asciiLower (pyStripStr pr.1)) (pyStripStr pr.2) d)
    []

/-- One iteration of the Content-Disposition token loop: a stripped token
starting with a name key overwrites the name, one starting with a filename key
overwrites the filename, any other token is skipped. -/
def extractStep (acc : Option Bytes × Option Bytes) (tok : Bytes) :
    Option Bytes × Option Bytes :=
  let t := pyStripStr tok
  if (strBytes "name=").isPrefixOf t then
    (some (stripQuotes (afterFirstEq t)), acc.2)
  else if (strBytes "filename=").isPrefixOf t then
    (acc.1, some (stripQuotes (afterFirstEq t)))
  else acc

/-- The Content-Disposition loop of parse_multipart: when the header value
contains a name token, scan the semicolon-separated tokens, recording the last
name and filename values, quote-stripped. -/
def extractNameFilename (cd : Bytes) : Option Bytes × Option Bytes :=
  if containsSeq (strBytes "name=") cd then
    (splitSeq [59] cd).foldl extractStep (none, none)
  else (none, none)

/-- The body of the section loop of parse_multipart, acting on the parts dict. -/
def parseSection (parts : List (Bytes × MPValue)) (section0 : Bytes) :
    List (Bytes × MPValue) :=
  let sec := pyStripBytes section0
  if sec = [] || sec = [45, 45] then parts
  else
    match splitAtFirst [13, 10, 13, 10] sec with
    | none => parts
    | some pr =>
      let headersStr := utf8DecodeIgnore pr.1
      let content := rstripCrLfDash pr.2
      let headers := parseHeaders headersStr
      let cd := (dictGet headers (strBytes "content-disposition")).getD []
      let nf := extractNameFilename cd
      match nf.1 with
      | none => parts
      | some n => if n = [] then parts else dictInsert n ⟨content, nf.2, headers⟩ parts

/-- parse_multipart of src/api/fix-font.py: split the body on the boundary bytes
and process every section. -/
def parse_multipart (body boundary : Bytes) : List (Bytes × MPValue) :=
  (splitSeq boundary body).foldl parseSection []

/-!  Reference construction of a well-formed multipart body (the object the C5
claim quantifies over): parts each carrying a Content-Disposition header with a
name and optionally a filename, followed by content bytes, delimited by the
boundary bytes handed to parse_multipart, with the standard two-dash final
delimiter. -/

structure MPart where
  name : Bytes
  filename : Option Bytes
  content : Bytes
deriving DecidableEq

/-- The name token of a Content-Disposition value, with its leading space. -/
def nameTok (p : MPart) : Bytes := strBytes " name=" ++ [34] ++ p.name ++ [34]

/-- The filename token of a Content-Disposition value, with its leading space. -/
def fileTok (f : Bytes) : Bytes := strBytes " filename=" ++ [34] ++ f ++ [34]

/-- The Content-Disposition header value of a part: form-data, a quoted name
token and optionally a quoted filename token, semicolon-separated. -/
def cdVal (p : MPart) : Bytes :=
  strBytes "form-data" ++ [59] ++
    (nameTok p ++
      (match p.filename with
       | none => []
       | some f => [59] ++ fileTok f))

/-- The Content-Disposition header line of a part, grouped around the colon. -/
def mkCDHeader (p : MPart) : Bytes :=
  strBytes "Content-Disposition" ++ [58] ++ ([32] ++ cdVal p)

/-- Header block, blank line, content: the payload of one part. -/
def mkSection (p : MPart) : Bytes := mkCDHeader p ++ [13, 10, 13, 10] ++ p.content

/-- The slice of the body a part contributes between two boundaries: a CRLF,
the part payload and the closing CRLF. -/
def mkPiece (p : MPart) : Bytes := [13, 10] ++ mkSection p ++ [13, 10]

/-- The body after the leading boundary: for each part its piece and the
boundary again; the last boundary is followed by two dashes. -/
def mkBodyRest (sep : Bytes) : List MPart → Bytes
  | [] => [45, 45] ++ [13, 10]
  | p :: ps => mkPiece p ++ sep ++ mkBodyRest sep ps

/-- A well-formed multipart body for boundary bytes sep and the given parts. -/
def mkBody (sep : Bytes) (ps : List MPart) : Bytes := sep ++ mkBodyRest sep ps

/-- Bytes allowed in names and filenames for the round-trip statement: ASCII,
no quotes, no semicolon, no CR or LF (the syntax the splitter can represent). -/
def goodByte (b : Nat) : Bool :=
  b ≤ 127 && b ≠ 34 && b ≠ 39 && b ≠ 59 && b ≠ 13 && b ≠ 10

/-- No occurrence of sep starts strictly before the end of x inside x ++ sep
(so the occurrence of sep right after x is the first one). -/
def noSepBefore (sep x : Bytes) : Bool :=
  (List.range x.length).all (fun i => !(sep.isPrefixOf ((x ++ sep).drop i)))

/-- No occurrence of sep anywhere in x. -/
def noSepAny (sep x : Bytes) : Bool :=
  (List.range (x.length + 1)).all (fun i => !(sep.isPrefixOf (x.drop i)))

/-- Well-formedness of one part for the C5 round-trip: nonempty representable
name, representable nonempty filename when present, content whose last byte
survives both the whitespace strip and the CR-LF-dash strip, and the boundary
not occurring before its delimiter position in the piece the part contributes
to the body. -/
def wfPart (sep : Bytes) (p : MPart) : Bool :=
  !(p.name = []) && p.name.all goodByte &&
  (match p.filename with | none => true | some f => !(f = []) && f.all goodByte) &&
  (match p.content.getLast? with
   | none => false
   | some b => !(wsByte b) && !(b = 45)) &&
  noSepBefore sep (mkPiece p)

/-!  The HTTP handler do_POST of src/api/fix-font.py.

The request carries the parsed Content-Length (int of the header, default 0),
the Content-Type header text and the body stream; do_POST reads content_length
bytes of the stream.  Everything inside the temporary directory, writing the
upload, running the fix and reading the patched output back, is abstracted by
a processing outcome parameter: success with the patched bytes, or a raised
exception with its message.  The handler consults it only after validation. -/

structure HttpRequest where
  contentLength : Nat
  contentType : Bytes
  body : Bytes

inductive ProcOutcome where
  | success (data : Bytes)
  | failure (msg : Bytes)

inductive PostResponse where
  | badRequest (msg : Bytes)
  | ok (contentTypeHdr : Bytes) (dispositionHdr : Bytes) (data : Bytes)
  | serverError (msg : Bytes)
deriving DecidableEq

/-- The HTTP status code each branch of do_POST responds with. -/
def PostResponse.code : PostResponse → Nat
  | .badRequest _ => 400
  | .ok _ _ _ => 200
  | .serverError _ => 500

/-- The boundary-extraction loop of do_POST: first semicolon token of the
Content-Type that, stripped, starts with a boundary key; its value is
quote-stripped and prefixed with two dashes. -/
def findBoundaryTok : List Bytes → Option Bytes
  | [] => none
  | t :: rest =>
    let s := pyStripStr t
    if (strBytes "boundary=").isPrefixOf s then
      some ([45, 45] ++ stripQuotes (afterFirstEq s))
    else findBoundaryTok rest

def extractBoundary (ct : Bytes) : Option Bytes := findBoundaryTok (splitSeq [59] ct)

/-- The content-type response map with its octet-stream default. -/
def contentTypeMapGet (fmt : Bytes) : Bytes :=
  if fmt = strBytes "ttf" then strBytes "font/ttf"
  else if fmt = strBytes "woff" then strBytes "font/woff"
  else if fmt = strBytes "woff2" then strBytes "font/woff2"
  else strBytes "application/octet-stream"

/-- The membership coercion of do_POST: formats outside the allowed list
become ttf. -/
def coerceFormat (s : Bytes) : Bytes :=
  if s = strBytes "ttf" || s = strBytes "woff" || s = strBytes "woff2" then s
  else strBytes "ttf"

/-- output_format in do_POST: content of the format part (default the ttf
bytes), utf-8-decoded ignoring errors, stripped, emptiness defaulted to ttf,
then coerced into the allowed list. -/
def computeOutputFormat (fp : Option MPValue) : Bytes :=
  let raw :=
    match fp with
    | none => pyStripStr (utf8DecodeIgnore (strBytes "ttf"))
    | some v => pyStripStr (utf8DecodeIgnore v.content)
  coerceFormat (if raw = [] then strBytes "ttf" else raw)

/-- do_POST of src/api/fix-font.py.  A part stored without filename makes
file_part.get return None and os.path.join(temp_dir, None) raise TypeError,
caught by the outer handler as a 500. -/
def do_POST (req : HttpRequest) (proc : ProcOutcome) : PostResponse :=
  if req.contentLength = 0 then PostResponse.badRequest (strBytes "No content")
  else
    let body := req.body.take req.contentLength
    if !(containsSeq (strBytes "multipart/form-data") req.contentType) then
      PostResponse.badRequest (strBytes "Content-Type must be multipart/form-data")
    else
      match extractBoundary req.contentType with
      | none => PostResponse.badRequest (strBytes "No boundary found")
      | some bnd =>
        let parts := parse_multipart body (utf8Encode bnd)
        match dictGet parts (strBytes "file") with
        | none => PostResponse.badRequest (strBytes "No file provided")
        | some fp =>
          if fp.content = [] then PostResponse.badRequest (strBytes "No file provided")
          else
            let fmt := computeOutputFormat (dictGet parts (strBytes "format"))
            match fp.filename with
            | none => PostResponse.serverError (strBytes "TypeError")
            | some fname =>
              let base := splitextBase fname
              match proc with
              | ProcOutcome.failure msg => PostResponse.serverError msg
              | ProcOutcome.success data =>
                PostResponse.ok (contentTypeMapGet fmt)
                  (strBytes "attachment; filename=" ++ [34] ++ base ++
                    strBytes "-fixed." ++ fmt ++ [34])
                  data

/-- The 400 condition on the parsed body: no file field, or one with empty
content (evaluated with the boundary of the request; true when there is no
boundary, in which case an earlier 400 fires anyway). -/
def badFileField (req : HttpRequest) : Bool :=
  match extractBoundary req.contentType with
  | none => true
  | some bnd =>
    match dictGet (parse_multipart (req.body.take req.contentLength) (utf8Encode bnd))
        (strBytes "file") with
    | none => true
    | some fp => fp.content = []

/-!  The filesystem watcher of src/scripts/ttx-to-woff2-watch.py.

Paths are embedded as lists of components of an absolute path; path.resolve()
is the identity in this model (no symbolic links).  A filesystem event carries
the watchdog is_directory flag and the source path; the existing files are a
predicate.  Spawning the compiler subprocess is modelled by returning the
argument vector of subprocess.run. -/

structure FsEvent where
  isDirectory : Bool
  srcPath : List Bytes

/-- pathlib suffix of the last path component: from its last dot, unless the
dot is the first or last character of the component. -/
def pathSuffix (p : List Bytes) : Bytes :=
  let nm := (p.getLast?).getD []
  match lastIdxOf 46 nm with
  | none => []
  | some i => if 0 < i && i + 1 < nm.length then nm.drop i else []

/-- Render a component path the way str(path) does for absolute paths. -/
def renderPath (p : List Bytes) : Bytes := p.foldl (fun acc c => acc ++ [47] ++ c) []

/-- The argument vector handed to subprocess.run by compile_ttx, with
sys.executable abstracted as python. -/
def ttxCommand (p : List Bytes) : List Bytes :=
  [strBytes "python", strBytes "-m", strBytes "fontTools.ttx", strBytes "-f",
   strBytes "--flavor", strBytes "woff2", renderPath p]

/-- compile_ttx: re-resolve, re-check existence and suffix, then run the
compiler; returns the spawned argument vector, none when nothing is spawned. -/
def compile_ttx (exists2 : List Bytes → Bool) (p : List Bytes) : Option (List Bytes) :=
  if !(exists2 p) || !(asciiLower (pathSuffix p) = strBytes ".ttx") then none
  else some (ttxCommand p)

/-- on_modified: skip directories and non-ttx suffixes; when the parent is not
the watch directory itself, require the path to be relative to the watch
directory (its components a prefix); then hand over to compile_ttx. -/
def on_modified (exists2 : List Bytes → Bool) (watchDir : List Bytes) (ev : FsEvent) :
    Option (List Bytes) :=
  if ev.isDirectory then none
  else if !(asciiLower (pathSuffix ev.srcPath) = strBytes ".ttx") then none
  else if ev.srcPath.dropLast = watchDir then compile_ttx exists2 ev.srcPath
  else if watchDir = ev.srcPath.take watchDir.length then compile_ttx exists2 ev.srcPath
  else none

/-!  Specification-side helpers and concrete inputs for the claims. -/

/-- The yMax values of the glyphs that have bounds, in font order. -/
def yMaxesOf (gs : List Glyph) : List Int := gs.filterMap (fun g => g.bounds.map Prod.fst)

/-- The yMin values of the glyphs that have bounds, in font order. -/
def yMinsOf (gs : List Glyph) : List Int := gs.filterMap (fun g => g.bounds.map Prod.snd)

/-- The OS/2 table of a fix result, when it succeeded. -/
def resultOS2 : Except FixError Font → Option OS2Table
  | Except.ok f => f.os2
  | Except.error _ => none

/-- The head table of a fix result, when it succeeded. -/
def resultHead : Except FixError Font → Option HeadTable
  | Except.ok f => f.head
  | Except.error _ => none

/-- An OS/2 table with every numeric field zero and no legacy win attributes. -/
def os2Zero : OS2Table := ⟨0, 0, 0, 0, 0, 0, none, none⟩

/-- A glyph with bounds yMax 800, yMin negative 200. -/
def glyphA : Glyph := ⟨some (800, -200)⟩

/-- A font whose hhea metrics disagree with its glyph bounds. -/
def fontA : Font := ⟨some [glyphA], none, ⟨1000, -250, 100⟩, some os2Zero, none⟩

/-- Like fontA but with a head table whose bounds also disagree with the glyphs. -/
def fontHeadA : Font := ⟨some [glyphA], some ⟨500, -100⟩, ⟨1000, -250, 100⟩, some os2Zero, none⟩

/-- The module fix of fontA. -/
def fixedFontA : Font :=
  ⟨some [glyphA], none, ⟨800, -200, 100⟩, some ⟨256, 800, -200, 100, 800, 200, none, none⟩, none⟩

/-- The OS/2 table the module fix produces from fontA (and from fontHeadA). -/
def os2ModuleA : OS2Table := ⟨256, 800, -200, 100, 800, 200, none, none⟩

/-- The fallback fix of fontA. -/
def fallbackFontA : Font :=
  ⟨some [glyphA], none, ⟨1000, -250, 100⟩, some ⟨128, 1000, -250, 100, 800, 200, none, none⟩, none⟩

/-- The OS/2 table the fallback fix produces from fontA. -/
def os2FallbackA : OS2Table := ⟨128, 1000, -250, 100, 800, 200, none, none⟩

/-- The module fix of fontHeadA: the save-time recalculation rewrites the head
bounding box to the glyph bounds. -/
def fixedFontHeadA : Font :=
  ⟨some [glyphA], some ⟨800, -200⟩, ⟨800, -200, 100⟩, some os2ModuleA, none⟩

/-- The head table of the module fix of fontHeadA. -/
def recalcedHeadA : HeadTable := ⟨800, -200⟩

/-- Input path for the C2 file-level counterexample. -/
def inPathA : Bytes := strBytes "in.ttf"

/-- Output path for the C2 file-level counterexample. -/
def outPathA : Bytes := strBytes "out.ttf"

/-- A disk carrying fontA at the input path. -/
def diskA : Disk := fun p => if p = inPathA then some fontA else none

/-- A font with several glyphs, some without bounds, and a decoy head table. -/
def fontC3 : Font :=
  ⟨some [⟨some (800, -200)⟩, ⟨none⟩, ⟨some (500, -300)⟩], some ⟨1, -1⟩,
   ⟨1000, -250, 100⟩, some os2Zero, none⟩

/-- The module fix of fontC3: the head bounding box is recalculated on save. -/
def fixedFontC3 : Font :=
  ⟨some [⟨some (800, -200)⟩, ⟨none⟩, ⟨some (500, -300)⟩], some ⟨800, -300⟩,
   ⟨800, -300, 100⟩, some ⟨256, 800, -300, 100, 800, 300, none, none⟩, none⟩

/-- The OS/2 table of the module fix of fontC3. -/
def os2C3 : OS2Table := ⟨256, 800, -300, 100, 800, 300, none, none⟩

/-- The empty disk. -/
def emptyDisk : Disk := fun _ => none

/-- Boundary bytes for the C5 round-trip witness. -/
def wSep : Bytes := strBytes "--bnd"

/-- A part for the C5 round-trip witness. -/
def wPart : MPart := ⟨strBytes "file", some (strBytes "a.ttf"), strBytes "FONT"⟩

/-- Boundary bytes for the C5 counterexample. -/
def cxSep : Bytes := strBytes "--X"

/-- A part whose content ends in a space: it survives the CR-LF-dash strip of
parse_multipart untouched, yet the section whitespace strip eats the space. -/
def cxPart : MPart := ⟨strBytes "file", some (strBytes "f.ttf"), strBytes "abc "⟩

/-- The well-formed body built from cxPart. -/
def cxBody : Bytes := mkBody cxSep [cxPart]

/-- A request carrying a well-formed multipart body with a file part. -/
def okReq : HttpRequest :=
  let bd := mkBody wSep [wPart]
  ⟨bd.length, strBytes "multipart/form-data; boundary=bnd", bd⟩

/-- The disposition header do_POST answers for okReq. -/
def okReqDisposition : Bytes :=
  strBytes "attachment; filename=" ++ [34] ++ strBytes "a" ++
    strBytes "-fixed." ++ strBytes "ttf" ++ [34]

/-- A trivial request with Content-Length zero. -/
def zeroReq : HttpRequest := ⟨0, [], []⟩

/-- An existence predicate under which every path exists. -/
def allExists : List Bytes → Bool := fun _ => true

/-- The watch directory of the C7 witness. -/
def watchW : List Bytes := [strBytes "w"]

/-- A modification event on an existing ttx file inside watchW. -/
def evW : FsEvent := ⟨false, [strBytes "w", strBytes "a.ttx"]⟩

/-- The dict value parse_multipart stores for a well-formed part. -/
def mkValue (p : MPart) : MPValue :=
  ⟨p.content, p.filename, [(strBytes "content-disposition", cdVal p)]⟩

/-- The insertion parse_multipart performs for one well-formed part. -/
def insertPart (d : List (Bytes × MPValue)) (p : MPart) : List (Bytes × MPValue) :=
  dictInsert p.name (mkValue p) d

/-!  General lemmas about the split and strip primitives. -/

theorem isPrefixOf_append_self (l t : Bytes) : l.isPrefixOf (l ++ t) = true := by
  induction l with
  | nil => simp [List.isPrefixOf]
  | cons a s ih => simp [List.isPrefixOf, ih]

theorem isPrefixOf_cons_ne (a b : Nat) (s t : Bytes) (h : ¬ a = b) :
    (a :: s).isPrefixOf (b :: t) = false := by
  simp [List.isPrefixOf, h]

theorem head?_eq_of_isPrefixOf (a : Nat) (s l : Bytes)
    (h : (a :: s).isPrefixOf l = true) : l.head? = some a := by
  cases l with
  | nil => simp [List.isPrefixOf] at h
  | cons b t =>
    simp only [List.isPrefixOf, Bool.and_eq_true, beq_iff_eq] at h
    simp [h.1]

theorem isPrefixOf_restrict (sep : Bytes) :
    ∀ (u v : Bytes), sep.isPrefixOf (u ++ v) = true → sep.length ≤ u.length →
      sep.isPrefixOf u = true := by
  induction sep with
  | nil => intro u v _ _; simp [List.isPrefixOf]
  | cons a s ih =>
    intro u v h hle
    cases u with
    | nil => simp at hle
    | cons b t =>
      simp only [List.cons_append, List.isPrefixOf, Bool.and_eq_true, beq_iff_eq] at h ⊢
      exact ⟨h.1, ih t v h.2 (by simpa using hle)⟩

theorem append_drop_of_isPrefixOf (sep : Bytes) :
    ∀ (l : Bytes), sep.isPrefixOf l = true → sep ++ l.drop sep.length = l := by
  induction sep with
  | nil => intro l _; simp
  | cons a s ih =>
    intro l h
    cases l with
    | nil => simp [List.isPrefixOf] at h
    | cons b t =>
      simp only [List.isPrefixOf, Bool.and_eq_true, beq_iff_eq] at h
      obtain ⟨h1, h2⟩ := h
      subst h1
      simpa using ih t h2

theorem splitAtFirst_decomp (sep : Bytes) :
    ∀ (l pre post : Bytes), splitAtFirst sep l = some (pre, post) →
      l = pre ++ sep ++ post := by
  intro l
  induction l with
  | nil => intro pre post h; simp [splitAtFirst] at h
  | cons a t ih =>
    intro pre post h
    by_cases hp : sep.isPrefixOf (a :: t) = true
    · rw [splitAtFirst, if_pos hp] at h
      have h1 : pre = [] ∧ post = (a :: t).drop sep.length := by
        constructor
        · exact (Prod.mk.injEq .. ▸ (Option.some.inj h)).1.symm
        · exact (Prod.mk.injEq .. ▸ (Option.some.inj h)).2.symm
      obtain ⟨h1, h2⟩ := h1
      subst h1; subst h2
      simpa using (append_drop_of_isPrefixOf sep (a :: t) hp).symm
    · rw [splitAtFirst, if_neg hp] at h
      cases hs : splitAtFirst sep t with
      | none => rw [hs] at h; exact absurd h (by simp)
      | some pr =>
        rw [hs] at h
        have h1 : pre = a :: pr.1 ∧ post = pr.2 := by
          constructor
          · exact (Prod.mk.injEq .. ▸ (Option.some.inj h)).1.symm
          · exact (Prod.mk.injEq .. ▸ (Option.some.inj h)).2.symm
        obtain ⟨h1, h2⟩ := h1
        subst h1; subst h2
        have := ih pr.1 pr.2 (by rw [hs])
        simp [this]

theorem splitAtFirst_first_occ (sep : Bytes) (hsep : sep ≠ []) :
    ∀ (x rest : Bytes),
      (∀ i, i < x.length → sep.isPrefixOf ((x ++ sep).drop i) = false) →
      splitAtFirst sep (x ++ sep ++ rest) = some (x, rest) := by
  intro x
  induction x with
  | nil =>
    intro rest _
    cases sep with
    | nil => exact absurd rfl hsep
    | cons a s =>
      simp only [List.nil_append, List.cons_append]
      rw [splitAtFirst, if_pos]
      · have : ((a :: s) ++ rest).drop (a :: s).length = rest := List.drop_left (a :: s) rest
        simp only [List.cons_append] at this
        rw [this]
      · have h := isPrefixOf_append_self (a :: s) rest
        simp only [List.cons_append] at h
        rw [h]
  | cons c x2 ih =>
    intro rest hno
    have hhead : sep.isPrefixOf (c :: (x2 ++ sep ++ rest)) = false := by
      have h0 := hno 0 (by simp)
      simp only [List.drop_zero] at h0
      cases hb : sep.isPrefixOf (c :: (x2 ++ sep ++ rest)) with
      | false => rfl
      | true =>
        have : sep.isPrefixOf ((c :: x2) ++ sep) = true := by
          apply isPrefixOf_restrict sep ((c :: x2) ++ sep) rest
          · simpa using hb
          · simp only [List.length_append, List.length_cons]
            omega
        rw [this] at h0
        exact absurd h0 (by simp)
    have htail : splitAtFirst sep (x2 ++ sep ++ rest) = some (x2, rest) := by
      apply ih rest
      intro i hi
      have := hno (i + 1) (by simpa using Nat.succ_lt_succ hi)
      simpa using this
    simp only [List.cons_append]
    rw [splitAtFirst, if_neg (by rw [hhead]; exact Bool.false_ne_true), htail]

theorem splitAtFirst_none (sep : Bytes) :
    ∀ (l : Bytes), (∀ i, sep.isPrefixOf (l.drop i) = false) →
      splitAtFirst sep l = none := by
  intro l
  induction l with
  | nil => intro _; rfl
  | cons a t ih =>
    intro h
    have h0 : sep.isPrefixOf (a :: t) = false := by simpa using h 0
    rw [splitAtFirst, if_neg (by simp [h0])]
    rw [ih (fun i => by simpa using h (i + 1))]

theorem splitAtFirst_isSome (sep : Bytes) (hsep : sep ≠ []) :
    ∀ (l : Bytes) (i : Nat), sep.isPrefixOf (l.drop i) = true →
      (splitAtFirst sep l).isSome = true := by
  intro l
  induction l with
  | nil =>
    intro i h
    cases sep with
    | nil => exact absurd rfl hsep
    | cons a s => simp [List.isPrefixOf] at h
  | cons a t ih =>
    intro i h
    by_cases hp : sep.isPrefixOf (a :: t) = true
    · rw [splitAtFirst, if_pos hp]; rfl
    · rw [splitAtFirst, if_neg hp]
      cases i with
      | zero => simp only [List.drop_zero] at h; exact absurd h hp
      | succ j =>
        simp only [List.drop_succ_cons] at h
        have := ih j h
        cases hs : splitAtFirst sep t with
        | none => rw [hs] at this; exact absurd this (by simp)
        | some pr => simp

theorem splitSeqAux_fuel_irrel (sep : Bytes) (hsep : sep ≠ []) :
    ∀ (fuel1 fuel2 : Nat) (l : Bytes), l.length < fuel1 → l.length < fuel2 →
      splitSeqAux sep fuel1 l = splitSeqAux sep fuel2 l := by
  intro fuel1
  induction fuel1 with
  | zero => intro fuel2 l h1 _; exact absurd h1 (by omega)
  | succ f ih =>
    intro fuel2 l h1 h2
    cases fuel2 with
    | zero => exact absurd h2 (by omega)
    | succ g =>
      rw [splitSeqAux, splitSeqAux]
      cases hs : splitAtFirst sep l with
      | none => rfl
      | some pr =>
        have hdec := splitAtFirst_decomp sep l pr.1 pr.2 (by rw [hs])
        have hseplen : 1 ≤ sep.length := by
          cases sep with
          | nil => exact absurd rfl hsep
          | cons a s => simp
        have hlen : pr.2.length < l.length := by
          rw [hdec]; simp only [List.length_append]; omega
        have e1 : splitSeqAux sep f pr.2 = splitSeqAux sep g pr.2 := by
          cases g with
          | zero => exact absurd hlen (by omega)
          | succ g2 => exact ih (g2 + 1) pr.2 (by omega) (by omega)
        show pr.1 :: splitSeqAux sep f pr.2 = pr.1 :: splitSeqAux sep g pr.2
        rw [e1]

theorem splitSeq_cons_eq (sep : Bytes) (hsep : sep ≠ []) (x rest : Bytes)
    (hno : ∀ i, i < x.length → sep.isPrefixOf ((x ++ sep).drop i) = false) :
    splitSeq sep (x ++ sep ++ rest) = x :: splitSeq sep rest := by
  unfold splitSeq
  rw [splitSeqAux, splitAtFirst_first_occ sep hsep x rest hno]
  have hseplen : 1 ≤ sep.length := by
    cases sep with
    | nil => exact absurd rfl hsep
    | cons a s => simp
  have hlen : rest.length < (x ++ sep ++ rest).length := by
    simp only [List.length_append]; omega
  show x :: splitSeqAux sep ((x ++ sep ++ rest).length) rest =
    x :: splitSeqAux sep (rest.length + 1) rest
  rw [splitSeqAux_fuel_irrel sep hsep ((x ++ sep ++ rest).length) (rest.length + 1) rest
    (by omega) (by omega)]

theorem splitSeq_single (sep l : Bytes)
    (h : ∀ i, sep.isPrefixOf (l.drop i) = false) : splitSeq sep l = [l] := by
  unfold splitSeq
  rw [splitSeqAux, splitAtFirst_none sep l h]

theorem noSepBefore_spec (sep x : Bytes) (h : noSepBefore sep x = true) :
    ∀ i, i < x.length → sep.isPrefixOf ((x ++ sep).drop i) = false := by
  intro i hi
  have := (List.all_eq_true.mp h) i (List.mem_range.mpr hi)
  simpa using this

theorem noSepAny_spec (sep x : Bytes) (hsep : sep ≠ []) (h : noSepAny sep x = true) :
    ∀ i, sep.isPrefixOf (x.drop i) = false := by
  intro i
  by_cases hi : i ≤ x.length
  · have := (List.all_eq_true.mp h) i (List.mem_range.mpr (by omega))
    simpa using this
  · rw [List.drop_eq_nil_of_le (by omega)]
    cases sep with
    | nil => exact absurd rfl hsep
    | cons a s => simp [List.isPrefixOf]

theorem no_occ_of_not_mem (c : Nat) (s2 x m : Bytes) (hc : c ∉ x) :
    ∀ i, i < x.length → (c :: s2).isPrefixOf ((x ++ m).drop i) = false := by
  intro i hi
  cases hb : (c :: s2).isPrefixOf ((x ++ m).drop i) with
  | false => rfl
  | true =>
    exfalso
    have hh := head?_eq_of_isPrefixOf c s2 _ hb
    rw [List.head?_drop] at hh
    rw [List.getElem?_append] at hh
    rw [if_pos hi] at hh
    exact hc (List.getElem?_mem hh)

theorem no_occ_all (c : Nat) (s2 x : Bytes) (hc : c ∉ x) :
    ∀ i, (c :: s2).isPrefixOf (x.drop i) = false := by
  intro i
  by_cases hi : i < x.length
  · have := no_occ_of_not_mem c s2 x [] hc i hi
    simpa using this
  · rw [List.drop_eq_nil_of_le (by omega)]
    simp [List.isPrefixOf]

theorem dropWhile_append_all (p : Nat → Bool) (u v : Bytes)
    (h : ∀ x ∈ u, p x = true) : (u ++ v).dropWhile p = v.dropWhile p := by
  induction u with
  | nil => simp
  | cons a t ih =>
    simp only [List.cons_append, List.dropWhile_cons]
    rw [if_pos (h a (by simp))]
    exact ih (fun x hx => h x (by simp [hx]))

theorem dropWhile_head_false (p : Nat → Bool) (u : Bytes) (a : Nat)
    (hu : u.head? = some a) (ha : p a = false) : u.dropWhile p = u := by
  cases u with
  | nil => simp at hu
  | cons b t =>
    have : b = a := by simpa using hu
    subst this
    simp [List.dropWhile_cons, ha]

theorem lstripBy_append_all (p : Nat → Bool) (u v : Bytes)
    (h : ∀ x ∈ u, p x = true) : lstripBy p (u ++ v) = lstripBy p v :=
  dropWhile_append_all p u v h

theorem lstripBy_head_false (p : Nat → Bool) (u : Bytes) (a : Nat)
    (hu : u.head? = some a) (ha : p a = false) : lstripBy p u = u :=
  dropWhile_head_false p u a hu ha

theorem rstripBy_append_all (p : Nat → Bool) (u v : Bytes)
    (h : ∀ x ∈ v, p x = true) : rstripBy p (u ++ v) = rstripBy p u := by
  unfold rstripBy
  rw [List.reverse_append]
  rw [dropWhile_append_all p v.reverse u.reverse
    (fun x hx => h x (List.mem_reverse.mp hx))]

theorem rstripBy_getLast_false (p : Nat → Bool) (l : Bytes) (b : Nat)
    (hl : l.getLast? = some b) (hb : p b = false) : rstripBy p l = l := by
  unfold rstripBy
  have hh : l.reverse.head? = some b := by rw [List.head?_reverse, hl]
  rw [dropWhile_head_false p l.reverse b hh hb, List.reverse_reverse]

theorem utf8DecodeIgnoreAux_ascii (fuel : Nat) :
    ∀ (l : Bytes), l.length ≤ fuel → (∀ b ∈ l, b < 128) →
      utf8DecodeIgnoreAux fuel l = l := by
  induction fuel with
  | zero =>
    intro l hlen _
    cases l with
    | nil => rfl
    | cons a t => simp at hlen
  | succ f ih =>
    intro l hlen hall
    cases l with
    | nil => rfl
    | cons a t =>
      simp only [utf8DecodeIgnoreAux]
      rw [if_pos (by simpa using hall a (by simp))]
      rw [ih t (by simpa using Nat.le_of_succ_le_succ (by simpa using hlen))
        (fun b hb => hall b (by simp [hb]))]

theorem utf8DecodeIgnore_ascii (l : Bytes) (h : ∀ b ∈ l, b < 128) :
    utf8DecodeIgnore l = l :=
  utf8DecodeIgnoreAux_ascii l.length l (Nat.le_refl _) h

theorem dictGet_insert_self {α : Type} (k : Bytes) (v : α) (d : List (Bytes × α)) :
    dictGet (dictInsert k v d) k = some v := by
  induction d with
  | nil => simp [dictInsert, dictGet]
  | cons e rest ih =>
    by_cases he : e.1 = k
    · simp [dictInsert, dictGet, he]
    · simp [dictInsert, dictGet, he, ih]

theorem dictGet_insert_ne {α : Type} (k k2 : Bytes) (v : α) (d : List (Bytes × α))
    (h : ¬ k2 = k) : dictGet (dictInsert k v d) k2 = dictGet d k2 := by
  have hs : ¬ k = k2 := fun hh => h hh.symm
  induction d with
  | nil => simp [dictInsert, dictGet, hs]
  | cons e rest ih =>
    by_cases he : e.1 = k
    · simp [dictInsert, dictGet, he, hs]
    · simp [dictInsert, dictGet, he, ih]

/-!  Lemmas about the glyph-bounds fold shared by the two fix functions. -/

theorem foldl_boundsStep_fst : ∀ (gs : List Glyph) (a b : Option Int),
    (gs.foldl boundsStep (a, b)).1 = (yMaxesOf gs).foldl maxStep a := by
  intro gs
  induction gs with
  | nil => intro a b; rfl
  | cons g t ih =>
    intro a b
    cases hg : g.bounds with
    | none =>
      simp only [List.foldl_cons, boundsStep, hg, yMaxesOf, List.filterMap_cons,
        Option.map_none']
      exact ih a b
    | some yb =>
      simp only [List.foldl_cons, boundsStep, hg, yMaxesOf, List.filterMap_cons,
        Option.map_some']
      exact ih (maxStep a yb.1) (minStep b yb.2)

theorem foldl_boundsStep_snd : ∀ (gs : List Glyph) (a b : Option Int),
    (gs.foldl boundsStep (a, b)).2 = (yMinsOf gs).foldl minStep b := by
  intro gs
  induction gs with
  | nil => intro a b; rfl
  | cons g t ih =>
    intro a b
    cases hg : g.bounds with
    | none =>
      simp only [List.foldl_cons, boundsStep, hg, yMinsOf, List.filterMap_cons,
        Option.map_none']
      exact ih a b
    | some yb =>
      simp only [List.foldl_cons, boundsStep, hg, yMinsOf, List.filterMap_cons,
        Option.map_some']
      exact ih (maxStep a yb.1) (minStep b yb.2)

theorem foldl_maxStep_some : ∀ (ys : List Int) (m : Int),
    ∃ M, ys.foldl maxStep (some m) = some M ∧ (M = m ∨ M ∈ ys) ∧ m ≤ M ∧
      ∀ y ∈ ys, y ≤ M := by
  intro ys
  induction ys with
  | nil => intro m; exact ⟨m, rfl, Or.inl rfl, le_refl m, by simp⟩
  | cons y t ih =>
    intro m
    by_cases hy : y > m
    · obtain ⟨M, h1, h2, h3, h4⟩ := ih y
      refine ⟨M, ?_, ?_, by omega, ?_⟩
      · simp only [List.foldl_cons, maxStep, if_pos hy]
        exact h1
      · rcases h2 with e | hm
        · exact Or.inr (by simp [e])
        · exact Or.inr (by simp [hm])
      · intro z hz
        rcases List.mem_cons.mp hz with e | hm
        · subst e; omega
        · exact h4 z hm
    · obtain ⟨M, h1, h2, h3, h4⟩ := ih m
      refine ⟨M, ?_, ?_, h3, ?_⟩
      · simp only [List.foldl_cons, maxStep, if_neg hy]
        exact h1
      · rcases h2 with e | hm
        · exact Or.inl e
        · exact Or.inr (by simp [hm])
      · intro z hz
        rcases List.mem_cons.mp hz with e | hm
        · subst e; omega
        · exact h4 z hm

theorem foldl_minStep_some : ∀ (ys : List Int) (m : Int),
    ∃ M, ys.foldl minStep (some m) = some M ∧ (M = m ∨ M ∈ ys) ∧ M ≤ m ∧
      ∀ y ∈ ys, M ≤ y := by
  intro ys
  induction ys with
  | nil => intro m; exact ⟨m, rfl, Or.inl rfl, le_refl m, by simp⟩
  | cons y t ih =>
    intro m
    by_cases hy : y < m
    · obtain ⟨M, h1, h2, h3, h4⟩ := ih y
      refine ⟨M, ?_, ?_, by omega, ?_⟩
      · simp only [List.foldl_cons, minStep, if_pos hy]
        exact h1
      · rcases h2 with e | hm
        · exact Or.inr (by simp [e])
        · exact Or.inr (by simp [hm])
      · intro z hz
        rcases List.mem_cons.mp hz with e | hm
        · subst e; omega
        · exact h4 z hm
    · obtain ⟨M, h1, h2, h3, h4⟩ := ih m
      refine ⟨M, ?_, ?_, h3, ?_⟩
      · simp only [List.foldl_cons, minStep, if_neg hy]
        exact h1
      · rcases h2 with e | hm
        · exact Or.inl e
        · exact Or.inr (by simp [hm])
      · intro z hz
        rcases List.mem_cons.mp hz with e | hm
        · subst e; omega
        · exact h4 z hm

theorem foldl_maxStep_none (ys : List Int) (h : ys ≠ []) :
    ∃ M, ys.foldl maxStep none = some M ∧ M ∈ ys ∧ ∀ y ∈ ys, y ≤ M := by
  cases ys with
  | nil => exact absurd rfl h
  | cons y t =>
    obtain ⟨M, h1, h2, h3, h4⟩ := foldl_maxStep_some t y
    refine ⟨M, ?_, ?_, ?_⟩
    · simp only [List.foldl_cons, maxStep]
      exact h1
    · rcases h2 with e | hm
      · exact by simp [e]
      · exact by simp [hm]
    · intro z hz
      rcases List.mem_cons.mp hz with e | hm
      · subst e; omega
      · exact h4 z hm

theorem foldl_minStep_none (ys : List Int) (h : ys ≠ []) :
    ∃ M, ys.foldl minStep none = some M ∧ M ∈ ys ∧ ∀ y ∈ ys, M ≤ y := by
  cases ys with
  | nil => exact absurd rfl h
  | cons y t =>
    obtain ⟨M, h1, h2, h3, h4⟩ := foldl_minStep_some t y
    refine ⟨M, ?_, ?_, ?_⟩
    · simp only [List.foldl_cons, minStep]
      exact h1
    · rcases h2 with e | hm
      · exact by simp [e]
      · exact by simp [hm]
    · intro z hz
      rcases List.mem_cons.mp hz with e | hm
      · subst e; omega
      · exact h4 z hm

theorem yMaxes_yMins_length (gs : List Glyph) :
    (yMaxesOf gs).length = (yMinsOf gs).length := by
  induction gs with
  | nil => rfl
  | cons g t ih =>
    cases hg : g.bounds with
    | none => simp [yMaxesOf, yMinsOf, List.filterMap_cons, hg] at ih ⊢; exact ih
    | some yb => simp [yMaxesOf, yMinsOf, List.filterMap_cons, hg] at ih ⊢; exact ih

theorem yMins_ne_nil_of_yMaxes (gs : List Glyph) (h : yMaxesOf gs ≠ []) :
    yMinsOf gs ≠ [] := by
  intro e
  apply h
  have := yMaxes_yMins_length gs
  rw [e] at this
  simpa using List.length_eq_zero.mp (by simpa using this)

theorem get_font_eq_find (font : Font) (gs : List Glyph) (hg : font.glyf = some gs)
    (h1 : yMaxesOf gs ≠ []) : get_font_ymax_ymin font = find_ymax_ymin font := by
  have h2 : yMinsOf gs ≠ [] := yMins_ne_nil_of_yMaxes gs h1
  obtain ⟨M, hM, _, _⟩ := foldl_maxStep_none _ h1
  obtain ⟨N, hN, _, _⟩ := foldl_minStep_none _ h2
  have e1 : (gs.foldl boundsStep (none, none)).1 = some M := by
    rw [foldl_boundsStep_fst]; exact hM
  have e2 : (gs.foldl boundsStep (none, none)).2 = some N := by
    rw [foldl_boundsStep_snd]; exact hN
  cases hh : font.head with
  | none => simp [get_font_ymax_ymin, find_ymax_ymin, hg, hh, e1, e2]
  | some h => simp [get_font_ymax_ymin, find_ymax_ymin, hg, hh, e1, e2]

theorem recalcHeadBBox_hhea (f : Font) : (recalcHeadBBox f).hhea = f.hhea := by
  unfold recalcHeadBBox
  cases f.glyf with
  | none => rfl
  | some gs =>
    cases f.head with
    | none => rfl
    | some h => rfl

theorem recalcHeadBBox_os2 (f : Font) : (recalcHeadBBox f).os2 = f.os2 := by
  unfold recalcHeadBBox
  cases f.glyf with
  | none => rfl
  | some gs =>
    cases f.head with
    | none => rfl
    | some h => rfl

theorem recalcHeadBBox_head_noglyf (f : Font) (hg : f.glyf = none) :
    (recalcHeadBBox f).head = f.head := by
  simp [recalcHeadBBox, hg]

theorem recalcHeadBBox_head_glyf (f : Font) (gs : List Glyph) (h : HeadTable)
    (hg : f.glyf = some gs) (hh : f.head = some h) :
    (recalcHeadBBox f).head =
      some ⟨((gs.foldl boundsStep (none, none)).1).getD 0,
            ((gs.foldl boundsStep (none, none)).2).getD 0⟩ := by
  simp [recalcHeadBBox, hg, hh]

/-!  Claims about the metric-fixing functions. -/

/-- C1: evaluation at a failing input.  The claim says both fix functions set
the USE_TYPO_METRICS bit (bit 7, mask 0x80) of OS/2.fsSelection.  On a font
with fsSelection 0 the module version of fix_vertical_metrics produces
fsSelection 256 = 0x100 (bit 8, the WWS flag) with bit 7 still clear, while the
inline API fallback produces 128 = 0x80 with bit 7 set: the module code sets
the wrong bit. -/
theorem c1_fsSelection_bit_evaluation :
    (resultOS2 (fix_vertical_metrics fontA none)).map OS2Table.fsSelection = some 256 ∧
    256 &&& 128 = 0 ∧
    (resultOS2 (fix_vertical_metrics_fallback fontA none)).map OS2Table.fsSelection =
      some 128 ∧
    128 &&& 128 = 128 := by decide

/-- C2: counterexample.  At fontA the two copies do not produce identical
output tables: the inline fallback produces no output at all, because its save
call font.save(output_path, flavor=flavor) raises TypeError on every call
(TTFont.save has no flavor parameter), while the module fix saves an output
file; and even the tables the fallback patches in memory before its failing
save differ from the module output (sTypoAscender 1000 against 800). -/
theorem c2_copies_disagree_counterexample :
    fix_vertical_metrics_fallback_run diskA inPathA outPathA none =
      Except.error (FixError.typeError, diskA) ∧
    fix_vertical_metrics_run diskA inPathA outPathA none =
      Except.ok (fun p => if p = outPathA then some fixedFontA else diskA p) ∧
    (resultOS2 (fix_vertical_metrics fontA none)).map OS2Table.sTypoAscender = some 800 ∧
    (resultOS2 (fix_vertical_metrics_fallback fontA none)).map OS2Table.sTypoAscender =
      some 1000 ∧
    ¬ ((800 : Int) = 1000) :=
  ⟨rfl, rfl, by decide, by decide, by decide⟩

/-- C2 (amended): the inline fallback never produces an output file: every run
raises, TypeError at the latest (the save call fails on every font it
patches), with the disk unchanged at propagation time, while the module
version does save output.  Comparing the tables the fallback computes in
memory before its failing save with the module output, the two copies agree
only on the usWin fields (whenever the glyf table yields at least one glyph
with bounds); hhea, the sTypo fields and fsSelection differ in general. -/
theorem c2_fallback_never_saves :
    (∀ (disk : Disk) (inp out : Bytes) (fl : Option Bytes) (d : Disk),
      fix_vertical_metrics_fallback_run disk inp out fl ≠ Except.ok d) ∧
    (∀ (disk : Disk) (inp out : Bytes) (fl : Option Bytes) (e : FixError) (d : Disk),
      fix_vertical_metrics_fallback_run disk inp out fl = Except.error (e, d) →
        d = disk) ∧
    (∀ (font : Font) (fl1 fl2 : Option Bytes) (gs : List Glyph) (F1 F2 : Font)
      (o1 o2 : OS2Table),
      font.glyf = some gs → yMaxesOf gs ≠ [] →
      fix_vertical_metrics font fl1 = Except.ok F1 →
      fix_vertical_metrics_fallback font fl2 = Except.ok F2 →
      F1.os2 = some o1 → F2.os2 = some o2 →
      o1.usWinAscent = o2.usWinAscent ∧ o1.usWinDescent = o2.usWinDescent) := by
  refine ⟨?_, ?_, ?_⟩
  · intro disk inp out fl d h
    cases hd : disk inp with
    | none => simp [fix_vertical_metrics_fallback_run, hd] at h
    | some f =>
      cases hf : fix_vertical_metrics_fallback f fl with
      | error e => simp [fix_vertical_metrics_fallback_run, hd, hf] at h
      | ok f2 => simp [fix_vertical_metrics_fallback_run, hd, hf] at h
  · intro disk inp out fl e d h
    cases hd : disk inp with
    | none =>
      simp only [fix_vertical_metrics_fallback_run, hd, Except.error.injEq,
        Prod.mk.injEq] at h
      exact h.2.symm
    | some f =>
      cases hf : fix_vertical_metrics_fallback f fl with
      | error e2 =>
        simp only [fix_vertical_metrics_fallback_run, hd, hf, Except.error.injEq,
          Prod.mk.injEq] at h
        exact h.2.symm
      | ok f2 =>
        simp only [fix_vertical_metrics_fallback_run, hd, hf, Except.error.injEq,
          Prod.mk.injEq] at h
        exact h.2.symm
  · intro font fl1 fl2 gs F1 F2 o1 o2 hg h1 hfix1 hfix2 ho1 ho2
    cases ho : font.os2 with
    | none => simp [fix_vertical_metrics, ho] at hfix1
    | some oz =>
      have heq := get_font_eq_find font gs hg h1
      simp only [fix_vertical_metrics, fix_vertical_metrics_fallback, ho,
        Except.ok.injEq] at hfix1 hfix2
      subst hfix1
      subst hfix2
      rw [recalcHeadBBox_os2] at ho1
      simp only [Option.some.injEq] at ho1 ho2
      subst ho1
      subst ho2
      rw [heq]
      exact ⟨rfl, rfl⟩

/-- C2 (amended) witness: at fontA the in-memory tables of the two copies
carry the same usWinAscent 800 and usWinDescent 200. -/
theorem c2_fallback_never_saves_witness :
    os2ModuleA.usWinAscent = os2FallbackA.usWinAscent ∧
    os2ModuleA.usWinDescent = os2FallbackA.usWinDescent :=
  c2_fallback_never_saves.2.2 fontA none none [glyphA] fixedFontA fallbackFontA
    os2ModuleA os2FallbackA (by decide) (by decide) (by rfl) (by rfl)
    (by decide) (by decide)

/-- C3: on a font with glyf and OS/2 tables whose glyf table yields at least
one glyph with bounds, the module fix makes hhea.ascent the largest glyph yMax
and mirrors it into sTypoAscender and usWinAscent, makes hhea.descent the
lowest glyph yMin and mirrors it into sTypoDescender, copies the unchanged
hhea.lineGap into sTypoLineGap, and writes the absolute value of the lowest
yMin into usWinDescent. -/
theorem c3_module_metrics_spec :
    ∀ (font : Font) (fl : Option Bytes) (gs : List Glyph) (o : OS2Table) (F : Font)
      (o2 : OS2Table),
      font.glyf = some gs → font.os2 = some o → yMaxesOf gs ≠ [] →
      fix_vertical_metrics font fl = Except.ok F → F.os2 = some o2 →
      F.hhea.ascent ∈ yMaxesOf gs ∧ (∀ y ∈ yMaxesOf gs, y ≤ F.hhea.ascent) ∧
      o2.sTypoAscender = F.hhea.ascent ∧ o2.usWinAscent = F.hhea.ascent ∧
      F.hhea.descent ∈ yMinsOf gs ∧ (∀ y ∈ yMinsOf gs, F.hhea.descent ≤ y) ∧
      o2.sTypoDescender = F.hhea.descent ∧
      o2.sTypoLineGap = F.hhea.lineGap ∧ F.hhea.lineGap = font.hhea.lineGap ∧
      o2.usWinDescent = |F.hhea.descent| := by
  intro font fl gs o F o2 hg ho h1 hfix ho2
  have h2 := yMins_ne_nil_of_yMaxes gs h1
  obtain ⟨M, hM, hMmem, hMmax⟩ := foldl_maxStep_none _ h1
  obtain ⟨N, hN, hNmem, hNmin⟩ := foldl_minStep_none _ h2
  have e1 : (gs.foldl boundsStep (none, none)).1 = some M := by
    rw [foldl_boundsStep_fst]; exact hM
  have e2 : (gs.foldl boundsStep (none, none)).2 = some N := by
    rw [foldl_boundsStep_snd]; exact hN
  have hym : get_font_ymax_ymin font = (M, N) := by
    cases hh : font.head with
    | none => simp [get_font_ymax_ymin, hg, hh, e1, e2]
    | some h => simp [get_font_ymax_ymin, hg, hh, e1, e2]
  simp only [fix_vertical_metrics, ho, hym, Except.ok.injEq] at hfix
  subst hfix
  rw [recalcHeadBBox_os2] at ho2
  simp only [Option.some.injEq] at ho2
  subst ho2
  rw [recalcHeadBBox_hhea]
  refine ⟨hMmem, hMmax, rfl, rfl, hNmem, hNmin, rfl, rfl, rfl, ?_⟩
  show (if N < 0 then -N else N) = |N|
  rcases lt_or_le N 0 with hneg | hpos
  · rw [if_pos hneg, abs_of_neg hneg]
  · rw [if_neg (by omega), abs_of_nonneg hpos]

/-- C3 witness: the instantiation of the field equalities at fontC3. -/
theorem c3_module_metrics_spec_witness :
    os2C3.sTypoAscender = fixedFontC3.hhea.ascent ∧
    os2C3.usWinAscent = fixedFontC3.hhea.ascent ∧
    os2C3.sTypoDescender = fixedFontC3.hhea.descent ∧
    os2C3.sTypoLineGap = fixedFontC3.hhea.lineGap ∧
    fixedFontC3.hhea.lineGap = fontC3.hhea.lineGap ∧
    os2C3.usWinDescent = |fixedFontC3.hhea.descent| := by
  have h := c3_module_metrics_spec fontC3 none
    [⟨some (800, -200)⟩, ⟨none⟩, ⟨some (500, -300)⟩] os2Zero fixedFontC3 os2C3
    (by decide) (by decide) (by decide) (by rfl) (by decide)
  exact ⟨h.2.2.1, h.2.2.2.1, h.2.2.2.2.2.2.1, h.2.2.2.2.2.2.2.1,
    h.2.2.2.2.2.2.2.2.1, h.2.2.2.2.2.2.2.2.2⟩

/-- C4: the saved head bounding box is recalculated.  fix_vertical_metrics
loads the font with the TTFont default recalcBBoxes=True and the bounds scan
touches the glyf table, so font.save rewrites head.yMin and head.yMax from the
glyph bounds: for every input font carrying a head table whose glyf table is
absent or yields at least one glyph with bounds, the output head table holds
exactly the font-wide bounds that get_font_ymax_ymin recomputes (for a font
without glyf the stored head values, which are what the scan reads back, are
kept on save). -/
theorem c4_head_bbox_recalculated :
    ∀ (font : Font) (fl : Option Bytes) (h : HeadTable) (F : Font) (h2 : HeadTable),
      font.head = some h →
      (font.glyf = none ∨ ∃ gs, font.glyf = some gs ∧ yMaxesOf gs ≠ []) →
      fix_vertical_metrics font fl = Except.ok F → F.head = some h2 →
      h2.yMax = (get_font_ymax_ymin font).1 ∧
      h2.yMin = (get_font_ymax_ymin font).2 := by
  intro font fl h F h2 hh hg hfix hF2
  obtain ⟨gF, hdF, hheaF, osF, flF⟩ := font
  simp only [] at hh hg
  subst hh
  cases osF with
  | none => simp [fix_vertical_metrics] at hfix
  | some oz =>
    rcases hg with hg | ⟨gs, hg, hbounds⟩
    · subst hg
      simp only [fix_vertical_metrics, recalcHeadBBox, Except.ok.injEq] at hfix
      subst hfix
      simp only [Option.some.injEq] at hF2
      subst hF2
      constructor <;> simp [get_font_ymax_ymin]
    · subst hg
      have hmins := yMins_ne_nil_of_yMaxes gs hbounds
      obtain ⟨M, hM, _, _⟩ := foldl_maxStep_none _ hbounds
      obtain ⟨N, hN, _, _⟩ := foldl_minStep_none _ hmins
      have e1 : (gs.foldl boundsStep (none, none)).1 = some M := by
        rw [foldl_boundsStep_fst]; exact hM
      have e2 : (gs.foldl boundsStep (none, none)).2 = some N := by
        rw [foldl_boundsStep_snd]; exact hN
      simp only [fix_vertical_metrics, recalcHeadBBox, Except.ok.injEq] at hfix
      subst hfix
      simp only [Option.some.injEq] at hF2
      subst hF2
      constructor <;> simp [get_font_ymax_ymin, e1, e2]

/-- C4 witness: at fontHeadA (stored head yMax 500, glyph bound 800) the
output head table carries the recomputed bounds 800 and -200. -/
theorem c4_head_bbox_recalculated_witness :
    recalcedHeadA.yMax = (get_font_ymax_ymin fontHeadA).1 ∧
    recalcedHeadA.yMin = (get_font_ymax_ymin fontHeadA).2 :=
  c4_head_bbox_recalculated fontHeadA none ⟨500, -100⟩ fixedFontHeadA recalcedHeadA
    (by decide) (Or.inr ⟨[glyphA], by decide, by decide⟩) (by rfl) (by decide)

/-- C8: fix_vertical_metrics is atomic on error at the file level: when it
raises, the disk at propagation time is the input disk, so nothing was written
at the output path; a missing input raises FileNotFoundError and a loaded font
without OS/2 raises ValueError, both before the save. -/
theorem c8_fix_run_atomic_on_error :
    ∀ (disk : Disk) (inp out : Bytes) (fl : Option Bytes),
      (∀ (e : FixError) (d2 : Disk),
        fix_vertical_metrics_run disk inp out fl = Except.error (e, d2) → d2 = disk) ∧
      (disk inp = none →
        fix_vertical_metrics_run disk inp out fl =
          Except.error (FixError.fileNotFoundError, disk)) ∧
      (∀ f, disk inp = some f → f.os2 = none →
        fix_vertical_metrics_run disk inp out fl =
          Except.error (FixError.valueError, disk)) := by
  intro disk inp out fl
  refine ⟨?_, ?_, ?_⟩
  · intro e d2 h
    cases hd : disk inp with
    | none =>
      simp only [fix_vertical_metrics_run, hd, Except.error.injEq, Prod.mk.injEq] at h
      exact h.2.symm
    | some f =>
      cases hfx : fix_vertical_metrics f fl with
      | error e2 =>
        simp only [fix_vertical_metrics_run, hd, hfx, Except.error.injEq,
          Prod.mk.injEq] at h
        exact h.2.symm
      | ok f2 => simp [fix_vertical_metrics_run, hd, hfx] at h
  · intro h
    simp [fix_vertical_metrics_run, h]
  · intro f h ho
    simp [fix_vertical_metrics_run, h, fix_vertical_metrics, ho]

/-- C8 witness: on the empty disk the run raises FileNotFoundError with the
disk unchanged. -/
theorem c8_fix_run_atomic_on_error_witness :
    fix_vertical_metrics_run emptyDisk [] [] none =
      Except.error (FixError.fileNotFoundError, emptyDisk) :=
  (c8_fix_run_atomic_on_error emptyDisk [] [] none).2.1 rfl

/-- C10: both fix functions write a non-negative value, the absolute value of
the computed lowest yMin, into the unsigned usWinDescent field. -/
theorem c10_usWinDescent_nonneg :
    ∀ (font : Font) (fl : Option Bytes) (F : Font) (o : OS2Table),
      (fix_vertical_metrics font fl = Except.ok F → F.os2 = some o →
        0 ≤ o.usWinDescent ∧ o.usWinDescent = |(get_font_ymax_ymin font).2|) ∧
      (fix_vertical_metrics_fallback font fl = Except.ok F → F.os2 = some o →
        0 ≤ o.usWinDescent ∧ o.usWinDescent = |(find_ymax_ymin font).2|) := by
  intro font fl F o
  constructor
  · intro h ho2
    cases ho : font.os2 with
    | none => simp [fix_vertical_metrics, ho] at h
    | some oz =>
      simp only [fix_vertical_metrics, ho, Except.ok.injEq] at h
      subst h
      rw [recalcHeadBBox_os2] at ho2
      simp only [Option.some.injEq] at ho2
      subst ho2
      show 0 ≤ (if (get_font_ymax_ymin font).2 < 0 then -(get_font_ymax_ymin font).2
        else (get_font_ymax_ymin font).2) ∧ _
      rcases lt_or_le (get_font_ymax_ymin font).2 0 with hneg | hpos
      · rw [if_pos hneg]
        exact ⟨by omega, by rw [abs_of_neg hneg]⟩
      · rw [if_neg (by omega)]
        exact ⟨hpos, by rw [abs_of_nonneg hpos]⟩
  · intro h ho2
    cases ho : font.os2 with
    | none => simp [fix_vertical_metrics_fallback, ho] at h
    | some oz =>
      simp only [fix_vertical_metrics_fallback, ho, Except.ok.injEq] at h
      subst h
      simp only [Option.some.injEq] at ho2
      subst ho2
      show 0 ≤ (if (find_ymax_ymin font).2 < 0 then -(find_ymax_ymin font).2
        else (find_ymax_ymin font).2) ∧ _
      rcases lt_or_le (find_ymax_ymin font).2 0 with hneg | hpos
      · rw [if_pos hneg]
        exact ⟨by omega, by rw [abs_of_neg hneg]⟩
      · rw [if_neg (by omega)]
        exact ⟨hpos, by rw [abs_of_nonneg hpos]⟩

/-- C10 witness: at fontA the module fix writes usWinDescent 200, the absolute
value of the lowest yMin negative 200. -/
theorem c10_usWinDescent_nonneg_witness :
    0 ≤ os2ModuleA.usWinDescent ∧
    os2ModuleA.usWinDescent = |(get_font_ymax_ymin fontA).2| :=
  (c10_usWinDescent_nonneg fontA none fixedFontA os2ModuleA).1 (by rfl) (by decide)

/-- C7: the watcher spawns the compiler only for modification events on
existing, non-directory paths with a case-insensitive ttx suffix lying in or
under the watched directory, and the spawned argument vector is exactly
python -m fontTools.ttx -f --flavor woff2 with the file path. -/
theorem c7_watcher_spawn_conditions :
    ∀ (exists2 : List Bytes → Bool) (watchDir : List Bytes) (ev : FsEvent)
      (c : List Bytes),
      on_modified exists2 watchDir ev = some c →
      ev.isDirectory = false ∧
      asciiLower (pathSuffix ev.srcPath) = strBytes ".ttx" ∧
      watchDir = ev.srcPath.take watchDir.length ∧
      exists2 ev.srcPath = true ∧
      c = ttxCommand ev.srcPath := by
  intro ex wd ev c h
  unfold on_modified at h
  by_cases hdir : ev.isDirectory = true
  · rw [if_pos hdir] at h
    exact absurd h (by simp)
  · rw [if_neg hdir] at h
    by_cases hsuf : asciiLower (pathSuffix ev.srcPath) = strBytes ".ttx"
    · rw [if_neg (by simp [hsuf])] at h
      have hcomp : compile_ttx ex ev.srcPath = some c →
          ex ev.srcPath = true ∧ c = ttxCommand ev.srcPath := by
        intro hc
        unfold compile_ttx at hc
        by_cases hex : ex ev.srcPath = true
        · rw [if_neg (by simp [hex, hsuf])] at hc
          exact ⟨hex, (Option.some.inj hc).symm⟩
        · rw [if_pos (by simp; exact Or.inl (by simpa using hex))] at hc
          exact absurd hc (by simp)
      by_cases hpar : ev.srcPath.dropLast = wd
      · rw [if_pos hpar] at h
        obtain ⟨hex, hc⟩ := hcomp h
        refine ⟨by simpa using hdir, hsuf, ?_, hex, hc⟩
        rw [← hpar, List.length_dropLast, ← List.dropLast_eq_take]
      · rw [if_neg hpar] at h
        by_cases hpre : wd = List.take wd.length ev.srcPath
        · rw [if_pos hpre] at h
          obtain ⟨hex, hc⟩ := hcomp h
          exact ⟨by simpa using hdir, hsuf, hpre, hex, hc⟩
        · rw [if_neg hpre] at h
          exact absurd h (by simp)
    · rw [if_pos (by simp [hsuf])] at h
      exact absurd h (by simp)

/-- C7 witness: a modification event on an existing file a.ttx directly inside
the watched directory spawns the compiler on that file. -/
theorem c7_watcher_spawn_conditions_witness :
    evW.isDirectory = false ∧
    asciiLower (pathSuffix evW.srcPath) = strBytes ".ttx" ∧
    watchW = evW.srcPath.take watchW.length ∧
    allExists evW.srcPath = true ∧
    ttxCommand evW.srcPath = ttxCommand evW.srcPath :=
  c7_watcher_spawn_conditions allExists watchW evW (ttxCommand evW.srcPath) (by rfl)

/-!  Claims about the HTTP handler. -/

theorem coerceFormat_mem (s : Bytes) :
    coerceFormat s = strBytes "ttf" ∨ coerceFormat s = strBytes "woff" ∨
      coerceFormat s = strBytes "woff2" := by
  unfold coerceFormat
  by_cases h1 : s = strBytes "ttf"
  · rw [if_pos (by simp [h1])]
    exact Or.inl h1
  · by_cases h2 : s = strBytes "woff"
    · rw [if_pos (by simp [h2])]
      exact Or.inr (Or.inl h2)
    · by_cases h3 : s = strBytes "woff2"
      · rw [if_pos (by simp [h3])]
        exact Or.inr (Or.inr h3)
      · rw [if_neg (by simp [h1, h2, h3])]
        exact Or.inl rfl

theorem isSuffixOf_append (s t : Bytes) : s.isSuffixOf (t ++ s) = true := by
  unfold List.isSuffixOf
  rw [List.reverse_append]
  exact isPrefixOf_append_self s.reverse t.reverse

theorem isSuffixOf_of_append (s l t : Bytes) (h : l = t ++ s) :
    s.isSuffixOf l = true := by
  rw [h]
  exact isSuffixOf_append s t

/-- C6: do_POST answers 400 exactly when the content length is zero, or the
content type does not contain multipart/form-data, or it carries no boundary
parameter, or the parsed body has no file field with non-empty content; every
response it gives has status 400, 200 or 500. -/
theorem c6_do_post_status_characterization :
    ∀ (req : HttpRequest) (proc : ProcOutcome),
      ((do_POST req proc).code = 400 ↔
        (req.contentLength = 0 ∨
         containsSeq (strBytes "multipart/form-data") req.contentType = false ∨
         extractBoundary req.contentType = none ∨
         badFileField req = true)) ∧
      ((do_POST req proc).code = 400 ∨ (do_POST req proc).code = 200 ∨
        (do_POST req proc).code = 500) := by
  intro req proc
  by_cases h1 : req.contentLength = 0
  · constructor
    · simp [do_POST, h1, PostResponse.code]
    · simp [do_POST, h1, PostResponse.code]
  · by_cases h2 : containsSeq (strBytes "multipart/form-data") req.contentType = true
    · cases h3 : extractBoundary req.contentType with
      | none =>
        constructor
        · simp [do_POST, h1, h2, h3, PostResponse.code]
        · simp [do_POST, h1, h2, h3, PostResponse.code]
      | some bnd =>
        cases h4 : dictGet
            (parse_multipart (req.body.take req.contentLength) (utf8Encode bnd))
            (strBytes "file") with
        | none =>
          constructor
          · simp [do_POST, h1, h2, h3, h4, badFileField, PostResponse.code]
          · simp [do_POST, h1, h2, h3, h4, PostResponse.code]
        | some fp =>
          by_cases h5 : fp.content = []
          · constructor
            · simp [do_POST, h1, h2, h3, h4, h5, badFileField, PostResponse.code]
            · simp [do_POST, h1, h2, h3, h4, h5, PostResponse.code]
          · cases hf : fp.filename with
            | none =>
              constructor
              · simp [do_POST, h1, h2, h3, h4, h5, hf, badFileField, PostResponse.code]
              · simp [do_POST, h1, h2, h3, h4, h5, hf, PostResponse.code]
            | some fname =>
              cases proc with
              | success data =>
                constructor
                · simp [do_POST, h1, h2, h3, h4, h5, hf, badFileField, PostResponse.code]
                · simp [do_POST, h1, h2, h3, h4, h5, hf, PostResponse.code]
              | failure msg =>
                constructor
                · simp [do_POST, h1, h2, h3, h4, h5, hf, badFileField, PostResponse.code]
                · simp [do_POST, h1, h2, h3, h4, h5, hf, PostResponse.code]
    · have h2f : containsSeq (strBytes "multipart/form-data") req.contentType = false := by
        simpa using h2
      constructor
      · simp [do_POST, h1, h2f, PostResponse.code]
      · simp [do_POST, h1, h2f, PostResponse.code]

/-- C6 witness: the characterization instantiated at the zero-length request. -/
theorem c6_do_post_status_characterization_witness :
    (((do_POST zeroReq (ProcOutcome.success [])).code = 400 ↔
      (zeroReq.contentLength = 0 ∨
       containsSeq (strBytes "multipart/form-data") zeroReq.contentType = false ∨
       extractBoundary zeroReq.contentType = none ∨
       badFileField zeroReq = true)) ∧
     ((do_POST zeroReq (ProcOutcome.success [])).code = 400 ∨
      (do_POST zeroReq (ProcOutcome.success [])).code = 200 ∨
      (do_POST zeroReq (ProcOutcome.success [])).code = 500)) :=
  c6_do_post_status_characterization zeroReq (ProcOutcome.success [])

/-- C9: the output format of do_POST is always coerced into the set ttf, woff,
woff2, so every 200 response carries a Content-Type among font/ttf, font/woff
and font/woff2 and a Content-Disposition whose filename ends in the same
extension. -/
theorem c9_output_format_coerced :
    (∀ fp : Option MPValue,
      computeOutputFormat fp = strBytes "ttf" ∨
      computeOutputFormat fp = strBytes "woff" ∨
      computeOutputFormat fp = strBytes "woff2") ∧
    (∀ (req : HttpRequest) (proc : ProcOutcome) (ct disp data : Bytes),
      do_POST req proc = PostResponse.ok ct disp data →
      ((ct = strBytes "font/ttf" ∧
          (strBytes ".ttf" ++ [34]).isSuffixOf disp = true) ∨
       (ct = strBytes "font/woff" ∧
          (strBytes ".woff" ++ [34]).isSuffixOf disp = true) ∨
       (ct = strBytes "font/woff2" ∧
          (strBytes ".woff2" ++ [34]).isSuffixOf disp = true))) := by
  constructor
  · intro fp
    simp only [computeOutputFormat]
    exact coerceFormat_mem _
  · intro req proc ct disp data h
    by_cases h1 : req.contentLength = 0
    · simp [do_POST, h1] at h
    · by_cases h2 : containsSeq (strBytes "multipart/form-data") req.contentType = true
      · cases h3 : extractBoundary req.contentType with
        | none => simp [do_POST, h1, h2, h3] at h
        | some bnd =>
          cases h4 : dictGet
              (parse_multipart (req.body.take req.contentLength) (utf8Encode bnd))
              (strBytes "file") with
          | none => simp [do_POST, h1, h2, h3, h4] at h
          | some fp =>
            by_cases h5 : fp.content = []
            · simp [do_POST, h1, h2, h3, h4, h5] at h
            · cases hf : fp.filename with
              | none => simp [do_POST, h1, h2, h3, h4, h5, hf] at h
              | some fname =>
                cases proc with
                | failure msg => simp [do_POST, h1, h2, h3, h4, h5, hf] at h
                | success data0 =>
                  simp [do_POST, h1, h2, h3, h4, h5, hf] at h
                  obtain ⟨hct, hdisp, hdata⟩ := h
                  generalize hgen : computeOutputFormat
                    (dictGet (parse_multipart (List.take req.contentLength req.body)
                      (utf8Encode bnd)) (strBytes "format")) = fmt at hct hdisp
                  have hmem : fmt = strBytes "ttf" ∨ fmt = strBytes "woff" ∨
                      fmt = strBytes "woff2" := by
                    rw [← hgen]
                    simp only [computeOutputFormat]
                    exact coerceFormat_mem _
                  rcases hmem with hm | hm | hm
                  · subst hm
                    refine Or.inl ⟨?_, ?_⟩
                    · rw [← hct]; decide
                    · refine isSuffixOf_of_append _ _
                        (strBytes "attachment; filename=" ++
                          ([34] ++ (splitextBase fname ++ strBytes "-fixed"))) ?_
                      rw [← hdisp]
                      simp only [List.append_assoc]
                      rw [show strBytes "-fixed." ++ (strBytes "ttf" ++ [34]) =
                        strBytes "-fixed" ++ (strBytes ".ttf" ++ [34]) from by decide]
                      simp
                  · subst hm
                    refine Or.inr (Or.inl ⟨?_, ?_⟩)
                    · rw [← hct]; decide
                    · refine isSuffixOf_of_append _ _
                        (strBytes "attachment; filename=" ++
                          ([34] ++ (splitextBase fname ++ strBytes "-fixed"))) ?_
                      rw [← hdisp]
                      simp only [List.append_assoc]
                      rw [show strBytes "-fixed." ++ (strBytes "woff" ++ [34]) =
                        strBytes "-fixed" ++ (strBytes ".woff" ++ [34]) from by decide]
                      simp
                  · subst hm
                    refine Or.inr (Or.inr ⟨?_, ?_⟩)
                    · rw [← hct]; decide
                    · refine isSuffixOf_of_append _ _
                        (strBytes "attachment; filename=" ++
                          ([34] ++ (splitextBase fname ++ strBytes "-fixed"))) ?_
                      rw [← hdisp]
                      simp only [List.append_assoc]
                      rw [show strBytes "-fixed." ++ (strBytes "woff2" ++ [34]) =
                        strBytes "-fixed" ++ (strBytes ".woff2" ++ [34]) from by decide]
                      simp
      · have h2f : containsSeq (strBytes "multipart/form-data") req.contentType = false := by
          simpa using h2
        simp [do_POST, h1, h2f] at h

/-- C9 witness: the 200 response for okReq carries Content-Type font/ttf and a
disposition filename ending in that extension. -/
theorem c9_output_format_coerced_witness :
    (strBytes "font/ttf" = strBytes "font/ttf" ∧
      (strBytes ".ttf" ++ [34]).isSuffixOf okReqDisposition = true) ∨
    (strBytes "font/ttf" = strBytes "font/woff" ∧
      (strBytes ".woff" ++ [34]).isSuffixOf okReqDisposition = true) ∨
    (strBytes "font/ttf" = strBytes "font/woff2" ∧
      (strBytes ".woff2" ++ [34]).isSuffixOf okReqDisposition = true) :=
  c9_output_format_coerced.2 okReq (ProcOutcome.success (strBytes "OUT"))
    (strBytes "font/ttf") okReqDisposition (strBytes "OUT") (by rfl)

/-!  Claims about the multipart splitter. -/

/-- C5: counterexample.  The content bytes abc-space survive the trailing
rstrip of CR, LF and dash untouched, yet parse_multipart returns abc: the
whitespace strip applied to the whole section eats the trailing space, so the
original content bytes are not returned exactly. -/
theorem c5_content_not_exact_counterexample :
    (dictGet (parse_multipart cxBody cxSep) (strBytes "file")).map
      (fun v => v.content) = some (strBytes "abc") ∧
    rstripCrLfDash (strBytes "abc ") = strBytes "abc " ∧
    ¬ (strBytes "abc" = strBytes "abc ") := by decide

/-!  Lemmas leading to the round-trip statement for parse_multipart. -/

theorem not_mem_of_all_good (c : Nat) (l : Bytes)
    (hall : ∀ b ∈ l, goodByte b = true) (hc : goodByte c = false) : c ∉ l := by
  intro hm
  have := hall c hm
  rw [hc] at this
  exact absurd this (by simp)

theorem good_lt_128 (l : Bytes) (hall : ∀ b ∈ l, goodByte b = true) :
    ∀ b ∈ l, b < 128 := by
  intro b hb
  have := hall b hb
  simp only [goodByte, Bool.and_eq_true, decide_eq_true_eq] at this
  omega

theorem getLast?_of_ne_nil (u : Bytes) (h : u ≠ []) :
    ∃ b, u.getLast? = some b ∧ b ∈ u := by
  cases hr : u.reverse with
  | nil => exact absurd (by simpa using congrArg List.reverse hr) h
  | cons d t =>
    refine ⟨d, ?_, ?_⟩
    · rw [List.getLast?_eq_head?_reverse, hr]
      rfl
    · have : d ∈ u.reverse := by rw [hr]; simp
      exact List.mem_reverse.mp this

theorem head?_of_append_lit (a : Nat) (u v : Bytes) (hu : u.head? = some a) :
    (u ++ v).head? = some a := by
  cases u with
  | nil => simp at hu
  | cons b t => simpa using hu

theorem head?_cdVal (p : MPart) : (cdVal p).head? = some 102 := by
  unfold cdVal
  exact head?_of_append_lit 102 (strBytes "form-data") _ (by decide)

theorem head?_mkCDHeader (p : MPart) : (mkCDHeader p).head? = some 67 := by
  unfold mkCDHeader
  exact head?_of_append_lit 67 (strBytes "Content-Disposition") _ (by decide)

theorem head?_mkSection (p : MPart) : (mkSection p).head? = some 67 := by
  unfold mkSection
  have h := head?_mkCDHeader p
  cases hh : mkCDHeader p with
  | nil => rw [hh] at h; simp at h
  | cons b t =>
    rw [hh] at h
    simpa using h

theorem not_mem_nameTok (c : Nat) (p : MPart)
    (hname : ∀ b ∈ p.name, goodByte b = true)
    (h1 : c ∉ strBytes " name=") (h2 : goodByte c = false) (h3 : ¬ c = 34) :
    c ∉ nameTok p := by
  unfold nameTok
  simp only [List.append_assoc, List.mem_append, List.mem_singleton]
  intro hm
  rcases hm with hm | hm | hm | hm
  · exact h1 hm
  · exact h3 (by simpa using hm)
  · exact not_mem_of_all_good c p.name hname h2 hm
  · exact h3 (by simpa using hm)

theorem not_mem_fileTok (c : Nat) (f : Bytes)
    (hf : ∀ b ∈ f, goodByte b = true)
    (h1 : c ∉ strBytes " filename=") (h2 : goodByte c = false) (h3 : ¬ c = 34) :
    c ∉ fileTok f := by
  unfold fileTok
  simp only [List.append_assoc, List.mem_append, List.mem_singleton]
  intro hm
  rcases hm with hm | hm | hm | hm
  · exact h1 hm
  · exact h3 (by simpa using hm)
  · exact not_mem_of_all_good c f hf h2 hm
  · exact h3 (by simpa using hm)

theorem not_mem_cdVal (c : Nat) (p : MPart)
    (hname : ∀ b ∈ p.name, goodByte b = true)
    (hfile : ∀ f, p.filename = some f → ∀ b ∈ f, goodByte b = true)
    (h1 : c ∉ strBytes "form-data") (h2 : c ∉ strBytes " name=")
    (h3 : c ∉ strBytes " filename=")
    (h4 : goodByte c = false) (h5 : ¬ c = 34) (h6 : ¬ c = 59) :
    c ∉ cdVal p := by
  unfold cdVal
  simp only [List.mem_append, List.mem_singleton]
  intro hm
  rcases hm with (hm | hm) | hm | hm
  · exact h1 hm
  · exact h6 hm
  · exact not_mem_nameTok c p hname h2 h4 h5 hm
  · cases hff : p.filename with
    | none => rw [hff] at hm; simp at hm
    | some f =>
      rw [hff] at hm
      simp only [List.mem_append, List.mem_singleton] at hm
      rcases hm with hm | hm
      · exact h6 hm
      · exact not_mem_fileTok c f (hfile f hff) h3 h4 h5 hm

theorem not_mem_mkCDHeader (c : Nat) (p : MPart)
    (hname : ∀ b ∈ p.name, goodByte b = true)
    (hfile : ∀ f, p.filename = some f → ∀ b ∈ f, goodByte b = true)
    (h1 : c ∉ strBytes "Content-Disposition") (h2 : ¬ c = 58) (h3 : ¬ c = 32)
    (h4 : c ∉ strBytes "form-data") (h5 : c ∉ strBytes " name=")
    (h6 : c ∉ strBytes " filename=")
    (h7 : goodByte c = false) (h8 : ¬ c = 34) (h9 : ¬ c = 59) :
    c ∉ mkCDHeader p := by
  unfold mkCDHeader
  simp only [List.mem_append, List.mem_singleton]
  intro hm
  rcases hm with (hm | hm) | hm | hm
  · exact h1 hm
  · exact h2 hm
  · exact h3 hm
  · exact not_mem_cdVal c p hname hfile h4 h5 h6 h7 h8 h9 hm

theorem good_ne (d : Nat) (hg : goodByte d = true) :
    d ≠ 34 ∧ d ≠ 39 ∧ d ≠ 59 ∧ d ≠ 13 ∧ d ≠ 10 ∧ d < 128 := by
  simp only [goodByte, Bool.and_eq_true, decide_eq_true_eq] at hg
  obtain ⟨⟨⟨⟨⟨hle, h34⟩, h39⟩, h59⟩, h13⟩, h10⟩ := hg
  exact ⟨h34, h39, h59, h13, h10, by omega⟩

theorem getLast?_cdVal (p : MPart) : (cdVal p).getLast? = some 34 := by
  rw [List.getLast?_eq_head?_reverse]
  cases hf : p.filename with
  | none => simp [cdVal, nameTok, hf]
  | some f => simp [cdVal, nameTok, fileTok, hf]

theorem strip_space_prefix (R : Bytes) (a : Nat) (hh : R.head? = some a)
    (ha : uniSpace a = false) (hl : R.getLast? = some 34) :
    pyStripStr ([32] ++ R) = R := by
  unfold pyStripStr
  rw [lstripBy_append_all uniSpace [32] R (by decide)]
  rw [lstripBy_head_false uniSpace R a hh ha]
  exact rstripBy_getLast_false uniSpace R 34 hl (by decide)

theorem strip_value_cdVal (p : MPart) :
    pyStripStr ([32] ++ cdVal p) = cdVal p :=
  strip_space_prefix (cdVal p) 102 (head?_cdVal p) (by decide) (getLast?_cdVal p)

theorem nameTok_regroup (p : MPart) :
    nameTok p = [32] ++ (strBytes "name=" ++ ([34] ++ p.name ++ [34])) := by
  unfold nameTok
  rw [show strBytes " name=" = [32] ++ strBytes "name=" from by decide]
  simp [List.append_assoc]

theorem fileTok_regroup (f : Bytes) :
    fileTok f = [32] ++ (strBytes "filename=" ++ ([34] ++ f ++ [34])) := by
  unfold fileTok
  rw [show strBytes " filename=" = [32] ++ strBytes "filename=" from by decide]
  simp [List.append_assoc]

theorem strip_nameTok (p : MPart) :
    pyStripStr (nameTok p) = strBytes "name=" ++ ([34] ++ p.name ++ [34]) := by
  rw [nameTok_regroup]
  refine strip_space_prefix _ 110 ?_ (by decide) ?_
  · exact head?_of_append_lit 110 (strBytes "name=") _ (by decide)
  · rw [List.getLast?_eq_head?_reverse]; simp

theorem strip_fileTok (f : Bytes) :
    pyStripStr (fileTok f) = strBytes "filename=" ++ ([34] ++ f ++ [34]) := by
  rw [fileTok_regroup]
  refine strip_space_prefix _ 102 ?_ (by decide) ?_
  · exact head?_of_append_lit 102 (strBytes "filename=") _ (by decide)
  · rw [List.getLast?_eq_head?_reverse]; simp

theorem afterFirstEq_of_lit (x rest : Bytes)
    (hsep : ∀ i, i < x.length → ([61] : Bytes).isPrefixOf ((x ++ [61]).drop i) = false) :
    afterFirstEq (x ++ ([61] ++ rest)) = rest := by
  unfold afterFirstEq
  have := splitAtFirst_first_occ [61] (by simp) x rest hsep
  simp only [List.append_assoc] at this
  rw [this]

theorem stripQuotes_quoted (u : Bytes) (hne : u ≠ [])
    (hq : ∀ b ∈ u, goodByte b = true) : stripQuotes ([34] ++ u ++ [34]) = u := by
  obtain ⟨d, hd, hdm⟩ := getLast?_of_ne_nil u hne
  obtain ⟨h34, h39, _, _, _, _⟩ := good_ne d (hq d hdm)
  have hhead : ∃ c, u.head? = some c ∧ c ∈ u := by
    cases u with
    | nil => exact absurd rfl hne
    | cons c u2 => exact ⟨c, rfl, by simp⟩
  obtain ⟨c, hc, hcm⟩ := hhead
  obtain ⟨hc34, hc39, _, _, _, _⟩ := good_ne c (hq c hcm)
  have e1 : lstripBy (fun b => decide (b = 34) || decide (b = 39))
      ([34] ++ (u ++ [34])) = u ++ [34] := by
    rw [lstripBy_append_all _ _ _ (by decide)]
    exact lstripBy_head_false _ _ c (head?_of_append_lit c u [34] hc)
      (by simp [hc34, hc39])
  have e2 : rstripBy (fun b => decide (b = 34) || decide (b = 39)) (u ++ [34]) = u := by
    rw [rstripBy_append_all _ _ _ (by decide)]
    exact rstripBy_getLast_false _ u d hd (by simp [h34, h39])
  unfold stripQuotes
  rw [List.append_assoc, e1, e2]

theorem extractStep_formdata (acc : Option Bytes × Option Bytes) :
    extractStep acc (strBytes "form-data") = acc := by
  simp only [extractStep]
  rw [show pyStripStr (strBytes "form-data") = strBytes "form-data" from by decide]
  rw [if_neg (by decide), if_neg (by decide)]

theorem extractStep_nameTok (acc : Option Bytes × Option Bytes) (p : MPart)
    (hne : p.name ≠ []) (hname : ∀ b ∈ p.name, goodByte b = true) :
    extractStep acc (nameTok p) = (some p.name, acc.2) := by
  simp only [extractStep]
  rw [strip_nameTok p]
  rw [if_pos (by exact isPrefixOf_append_self (strBytes "name=") ([34] ++ p.name ++ [34]))]
  rw [show strBytes "name=" = strBytes "name" ++ [61] from by decide]
  rw [List.append_assoc]
  rw [afterFirstEq_of_lit (strBytes "name") ([34] ++ p.name ++ [34]) (by decide)]
  rw [stripQuotes_quoted p.name hne hname]

theorem extractStep_fileTok (acc : Option Bytes × Option Bytes) (f : Bytes)
    (hne : f ≠ []) (hf : ∀ b ∈ f, goodByte b = true) :
    extractStep acc (fileTok f) = (acc.1, some f) := by
  simp only [extractStep]
  rw [strip_fileTok f]
  have hcond : (strBytes "name=").isPrefixOf
      (strBytes "filename=" ++ ([34] ++ f ++ [34])) = false := by
    rw [show strBytes "name=" = 110 :: strBytes "ame=" from by decide,
        show strBytes "filename=" = 102 :: strBytes "ilename=" from by decide,
        List.cons_append]
    exact isPrefixOf_cons_ne 110 102 _ _ (by omega)
  rw [if_neg (by rw [hcond]; exact Bool.false_ne_true)]
  rw [if_pos (by exact isPrefixOf_append_self (strBytes "filename=") ([34] ++ f ++ [34]))]
  rw [show strBytes "filename=" = strBytes "filename" ++ [61] from by decide]
  rw [List.append_assoc]
  rw [afterFirstEq_of_lit (strBytes "filename") ([34] ++ f ++ [34]) (by decide)]
  rw [stripQuotes_quoted f hne hf]

theorem containsSeq_name_cdVal (p : MPart) :
    containsSeq (strBytes "name=") (cdVal p) = true := by
  have hre : cdVal p = (strBytes "form-data" ++ [59] ++ [32]) ++
      (strBytes "name=" ++ (([34] ++ p.name ++ [34]) ++
        (match p.filename with | none => [] | some f => [59] ++ fileTok f))) := by
    simp only [cdVal, nameTok_regroup, List.append_assoc]
  have hdrop : (cdVal p).drop 11 = strBytes "name=" ++ (([34] ++ p.name ++ [34]) ++
      (match p.filename with | none => [] | some f => [59] ++ fileTok f)) := by
    rw [hre]
    rw [show (11 : Nat) = (strBytes "form-data" ++ [59] ++ [32]).length from by decide]
    exact List.drop_left _ _
  unfold containsSeq
  apply splitAtFirst_isSome (strBytes "name=") (by decide) (cdVal p) 11
  rw [hdrop]
  exact isPrefixOf_append_self _ _

theorem splitSeq_cdVal_none (p : MPart) (hf : p.filename = none)
    (hname : ∀ b ∈ p.name, goodByte b = true) :
    splitSeq [59] (cdVal p) = [strBytes "form-data", nameTok p] := by
  have h59 : (59 : Nat) ∉ nameTok p :=
    not_mem_nameTok 59 p hname (by decide) (by decide) (by decide)
  have hval : cdVal p = strBytes "form-data" ++ [59] ++ nameTok p := by
    simp [cdVal, hf]
  rw [hval]
  rw [splitSeq_cons_eq [59] (by simp) (strBytes "form-data") (nameTok p) (by decide)]
  rw [splitSeq_single [59] (nameTok p) (no_occ_all 59 [] _ h59)]

theorem splitSeq_cdVal_some (p : MPart) (f : Bytes) (hf : p.filename = some f)
    (hname : ∀ b ∈ p.name, goodByte b = true)
    (hfile : ∀ b ∈ f, goodByte b = true) :
    splitSeq [59] (cdVal p) = [strBytes "form-data", nameTok p, fileTok f] := by
  have h59n : (59 : Nat) ∉ nameTok p :=
    not_mem_nameTok 59 p hname (by decide) (by decide) (by decide)
  have h59f : (59 : Nat) ∉ fileTok f :=
    not_mem_fileTok 59 f hfile (by decide) (by decide) (by decide)
  have hval : cdVal p = strBytes "form-data" ++ [59] ++
      (nameTok p ++ [59] ++ fileTok f) := by
    simp [cdVal, hf, List.append_assoc]
  rw [hval]
  rw [splitSeq_cons_eq [59] (by simp) (strBytes "form-data")
    (nameTok p ++ [59] ++ fileTok f) (by decide)]
  rw [splitSeq_cons_eq [59] (by simp) (nameTok p) (fileTok f)
    (no_occ_of_not_mem 59 [] (nameTok p) [59] h59n)]
  rw [splitSeq_single [59] (fileTok f) (no_occ_all 59 [] _ h59f)]

theorem extract_cdVal (p : MPart) (hne : p.name ≠ [])
    (hname : ∀ b ∈ p.name, goodByte b = true)
    (hfile : ∀ f, p.filename = some f → f ≠ [] ∧ ∀ b ∈ f, goodByte b = true) :
    extractNameFilename (cdVal p) = (some p.name, p.filename) := by
  unfold extractNameFilename
  rw [if_pos (by rw [containsSeq_name_cdVal p])]
  cases hf : p.filename with
  | none =>
    rw [splitSeq_cdVal_none p hf hname]
    simp only [List.foldl_cons, List.foldl_nil]
    rw [extractStep_formdata, extractStep_nameTok _ p hne hname]
  | some f =>
    obtain ⟨hfne, hfgood⟩ := hfile f hf
    rw [splitSeq_cdVal_some p f hf hname hfgood]
    simp only [List.foldl_cons, List.foldl_nil]
    rw [extractStep_formdata, extractStep_nameTok _ p hne hname,
      extractStep_fileTok _ f hfne hfgood]

theorem forall_lt_append (u v : Bytes) (hu : ∀ x ∈ u, x < 128)
    (hv : ∀ x ∈ v, x < 128) : ∀ x ∈ u ++ v, x < 128 := by
  intro x hx
  rcases List.mem_append.mp hx with h | h
  · exact hu x h
  · exact hv x h

theorem ascii_nameTok (p : MPart) (hname : ∀ b ∈ p.name, goodByte b = true) :
    ∀ x ∈ nameTok p, x < 128 := by
  have hn : ∀ x ∈ p.name, x < 128 :=
    fun x hx => (good_ne x (hname x hx)).2.2.2.2.2
  unfold nameTok
  exact forall_lt_append _ _
    (forall_lt_append _ _ (forall_lt_append _ _ (by decide) (by decide)) hn)
    (by decide)

theorem ascii_fileTok (f : Bytes) (hf : ∀ b ∈ f, goodByte b = true) :
    ∀ x ∈ fileTok f, x < 128 := by
  have hn : ∀ x ∈ f, x < 128 := fun x hx => (good_ne x (hf x hx)).2.2.2.2.2
  unfold fileTok
  exact forall_lt_append _ _
    (forall_lt_append _ _ (forall_lt_append _ _ (by decide) (by decide)) hn)
    (by decide)

theorem ascii_cdVal (p : MPart)
    (hname : ∀ b ∈ p.name, goodByte b = true)
    (hfile : ∀ f, p.filename = some f → ∀ b ∈ f, goodByte b = true) :
    ∀ x ∈ cdVal p, x < 128 := by
  unfold cdVal
  refine forall_lt_append _ _ (forall_lt_append _ _ (by decide) (by decide))
    (forall_lt_append _ _ (ascii_nameTok p hname) ?_)
  cases hff : p.filename with
  | none => simp
  | some f =>
    exact forall_lt_append _ _ (by decide) (ascii_fileTok f (hfile f hff))

theorem ascii_mkCDHeader (p : MPart)
    (hname : ∀ b ∈ p.name, goodByte b = true)
    (hfile : ∀ f, p.filename = some f → ∀ b ∈ f, goodByte b = true) :
    ∀ b ∈ mkCDHeader p, b < 128 := by
  unfold mkCDHeader
  exact forall_lt_append _ _ (forall_lt_append _ _ (by decide) (by decide))
    (forall_lt_append _ _ (by decide) (ascii_cdVal p hname hfile))

theorem parseHeaders_mkCDHeader (p : MPart)
    (hname : ∀ b ∈ p.name, goodByte b = true)
    (hfile : ∀ f, p.filename = some f → ∀ b ∈ f, goodByte b = true) :
    parseHeaders (mkCDHeader p) = [(strBytes "content-disposition", cdVal p)] := by
  have h13 : (13 : Nat) ∉ mkCDHeader p :=
    not_mem_mkCDHeader 13 p hname hfile (by decide) (by decide) (by decide)
      (by decide) (by decide) (by decide) (by decide) (by decide) (by decide)
  have hsplit : splitSeq [13, 10] (mkCDHeader p) = [mkCDHeader p] :=
    splitSeq_single _ _ (no_occ_all 13 [10] _ h13)
  have hsf : splitAtFirst [58] (mkCDHeader p) =
      some (strBytes "Content-Disposition", [32] ++ cdVal p) := by
    unfold mkCDHeader
    exact splitAtFirst_first_occ [58] (by simp) (strBytes "Content-Disposition")
      ([32] ++ cdVal p) (by decide)
  unfold parseHeaders
  rw [hsplit]
  simp only [List.foldl_cons, List.foldl_nil]
  rw [hsf]
  show dictInsert (asciiLower (pyStripStr (strBytes "Content-Disposition")))
    (pyStripStr ([32] ++ cdVal p)) [] = _
  rw [show asciiLower (pyStripStr (strBytes "Content-Disposition")) =
    strBytes "content-disposition" from by decide]
  rw [strip_value_cdVal p]
  rfl

theorem getLast?_mkSection (p : MPart) (b : Nat)
    (hlast : p.content.getLast? = some b) : (mkSection p).getLast? = some b := by
  unfold mkSection
  rw [List.getLast?_append, hlast]
  rfl

theorem strip_mkPiece (p : MPart) (b : Nat)
    (hlast : p.content.getLast? = some b) (hws : wsByte b = false) :
    pyStripBytes (mkPiece p) = mkSection p := by
  unfold mkPiece pyStripBytes
  have hhead : (mkSection p ++ [13, 10]).head? = some 67 :=
    head?_of_append_lit 67 _ _ (head?_mkSection p)
  have e1 : lstripBy wsByte ([13, 10] ++ mkSection p ++ [13, 10]) =
      mkSection p ++ [13, 10] := by
    rw [List.append_assoc]
    rw [lstripBy_append_all wsByte [13, 10] _ (by decide)]
    exact lstripBy_head_false wsByte _ 67 hhead (by decide)
  rw [e1]
  rw [rstripBy_append_all wsByte (mkSection p) [13, 10] (by decide)]
  exact rstripBy_getLast_false wsByte _ b (getLast?_mkSection p b hlast) hws

theorem parseSection_piece (p : MPart) (parts : List (Bytes × MPValue))
    (hne : p.name ≠ [])
    (hname : ∀ b2 ∈ p.name, goodByte b2 = true)
    (hfile : ∀ f, p.filename = some f → f ≠ [] ∧ ∀ b2 ∈ f, goodByte b2 = true)
    (b : Nat) (hlast : p.content.getLast? = some b)
    (hws : wsByte b = false) (h45 : ¬ b = 45) :
    parseSection parts (mkPiece p) = dictInsert p.name (mkValue p) parts := by
  have hfile2 : ∀ f, p.filename = some f → ∀ b2 ∈ f, goodByte b2 = true :=
    fun f hf => (hfile f hf).2
  have h13 : (13 : Nat) ∉ mkCDHeader p :=
    not_mem_mkCDHeader 13 p hname hfile2 (by decide) (by decide) (by decide)
      (by decide) (by decide) (by decide) (by decide) (by decide) (by decide)
  have hg1 : ¬ (mkSection p = []) := by
    intro e
    have := head?_mkSection p
    rw [e] at this
    simp at this
  have hg2 : ¬ (mkSection p = [45, 45]) := by
    intro e
    have := head?_mkSection p
    rw [e] at this
    simp at this
  have hsp : splitAtFirst [13, 10, 13, 10] (mkSection p) =
      some (mkCDHeader p, p.content) := by
    unfold mkSection
    exact splitAtFirst_first_occ [13, 10, 13, 10] (by simp) (mkCDHeader p) p.content
      (no_occ_of_not_mem 13 [10, 13, 10] (mkCDHeader p) [13, 10, 13, 10] h13)
  have hdec : utf8DecodeIgnore (mkCDHeader p) = mkCDHeader p :=
    utf8DecodeIgnore_ascii _ (ascii_mkCDHeader p hname hfile2)
  have hb1310 : ¬ b = 13 ∧ ¬ b = 10 := by
    simp only [wsByte, Bool.or_eq_false_iff, decide_eq_false_iff_not] at hws
    obtain ⟨⟨⟨⟨⟨h32, h9⟩, h10⟩, h11⟩, h12⟩, h13b⟩ := hws
    exact ⟨h13b, h10⟩
  have hcon : rstripCrLfDash p.content = p.content := by
    unfold rstripCrLfDash
    exact rstripBy_getLast_false _ _ b hlast
      (by simp [hb1310.1, hb1310.2, h45])
  unfold parseSection
  rw [strip_mkPiece p b hlast hws]
  rw [if_neg (by simp [hg1, hg2])]
  rw [hsp]
  show (let headersStr := utf8DecodeIgnore (mkCDHeader p)
        let content := rstripCrLfDash p.content
        let headers := parseHeaders headersStr
        let cd := (dictGet headers (strBytes "content-disposition")).getD []
        let nf := extractNameFilename cd
        match nf.1 with
        | none => parts
        | some n => if n = [] then parts else dictInsert n ⟨content, nf.2, headers⟩ parts) = _
  simp only [hdec, hcon, parseHeaders_mkCDHeader p hname hfile2]
  rw [show dictGet [(strBytes "content-disposition", cdVal p)]
    (strBytes "content-disposition") = some (cdVal p) from by simp [dictGet]]
  simp only [Option.getD_some, extract_cdVal p hne hname hfile]
  rw [if_neg hne]
  rfl

theorem wfPart_unpack (sep : Bytes) (p : MPart) (h : wfPart sep p = true) :
    p.name ≠ [] ∧ (∀ b ∈ p.name, goodByte b = true) ∧
    (∀ f, p.filename = some f → f ≠ [] ∧ ∀ b ∈ f, goodByte b = true) ∧
    (∃ b, p.content.getLast? = some b ∧ wsByte b = false ∧ ¬ b = 45) ∧
    noSepBefore sep (mkPiece p) = true := by
  simp only [wfPart, Bool.and_eq_true] at h
  obtain ⟨⟨⟨⟨h1, h2⟩, h3⟩, h4⟩, h5⟩ := h
  refine ⟨by simpa using h1, List.all_eq_true.mp h2, ?_, ?_, h5⟩
  · intro f hf
    rw [hf] at h3
    simp only [Bool.and_eq_true] at h3
    exact ⟨by simpa using h3.1, List.all_eq_true.mp h3.2⟩
  · cases hl : p.content.getLast? with
    | none => rw [hl] at h4; simp at h4
    | some b =>
      rw [hl] at h4
      simp only [Bool.and_eq_true] at h4
      exact ⟨b, rfl, by simpa using h4.1, by simpa using h4.2⟩

theorem splitSeq_mkBodyRest (sep : Bytes) (hsep : sep ≠ []) :
    ∀ (ps : List MPart), (∀ p ∈ ps, wfPart sep p = true) →
      noSepAny sep ([45, 45] ++ [13, 10]) = true →
      splitSeq sep (mkBodyRest sep ps) =
        (ps.map mkPiece) ++ [[45, 45] ++ [13, 10]] := by
  intro ps
  induction ps with
  | nil =>
    intro _ htail
    unfold mkBodyRest
    rw [splitSeq_single sep _ (noSepAny_spec sep _ hsep htail)]
    rfl
  | cons p ps2 ih =>
    intro hwf htail
    unfold mkBodyRest
    rw [splitSeq_cons_eq sep hsep (mkPiece p) (mkBodyRest sep ps2)
      (noSepBefore_spec sep _ ((wfPart_unpack sep p (hwf p (by simp))).2.2.2.2))]
    rw [ih (fun q hq => hwf q (by simp [hq])) htail]
    rfl

theorem splitSeq_mkBody (sep : Bytes) (hsep : sep ≠ []) (ps : List MPart)
    (hwf : ∀ p ∈ ps, wfPart sep p = true)
    (htail : noSepAny sep ([45, 45] ++ [13, 10]) = true) :
    splitSeq sep (mkBody sep ps) =
      [] :: ((ps.map mkPiece) ++ [[45, 45] ++ [13, 10]]) := by
  unfold mkBody
  rw [show sep ++ mkBodyRest sep ps = [] ++ sep ++ mkBodyRest sep ps from by simp]
  rw [splitSeq_cons_eq sep hsep [] (mkBodyRest sep ps)
    (fun i hi => absurd hi (by simp))]
  rw [splitSeq_mkBodyRest sep hsep ps hwf htail]

theorem foldl_parseSection_pieces :
    ∀ (ps : List MPart) (parts : List (Bytes × MPValue)),
      (∀ p ∈ ps, p.name ≠ [] ∧ (∀ b ∈ p.name, goodByte b = true) ∧
        (∀ f, p.filename = some f → f ≠ [] ∧ ∀ b ∈ f, goodByte b = true) ∧
        (∃ b, p.content.getLast? = some b ∧ wsByte b = false ∧ ¬ b = 45)) →
      List.foldl parseSection parts ((ps.map mkPiece) ++ [[45, 45] ++ [13, 10]]) =
        ps.foldl insertPart parts := by
  intro ps
  induction ps with
  | nil =>
    intro parts _
    simp only [List.map_nil, List.nil_append, List.foldl_cons, List.foldl_nil,
      List.foldl_nil]
    show parseSection parts ([45, 45] ++ [13, 10]) = parts
    unfold parseSection
    rw [show pyStripBytes ([45, 45] ++ [13, 10]) = [45, 45] from by decide]
    rw [if_pos (by decide)]
  | cons p ps2 ih =>
    intro parts hwf
    obtain ⟨hne, hname, hfile, b, hlast, hws, h45⟩ := hwf p (by simp)
    simp only [List.map_cons, List.cons_append, List.foldl_cons]
    rw [parseSection_piece p parts hne hname hfile b hlast hws h45]
    exact ih _ (fun q hq => hwf q (by simp [hq]))

theorem parse_mkBody (sep : Bytes) (hsep : sep ≠ []) (ps : List MPart)
    (hwf : ∀ p ∈ ps, wfPart sep p = true)
    (htail : noSepAny sep ([45, 45] ++ [13, 10]) = true) :
    parse_multipart (mkBody sep ps) sep = ps.foldl insertPart [] := by
  unfold parse_multipart
  rw [splitSeq_mkBody sep hsep ps hwf htail]
  simp only [List.foldl_cons]
  rw [show parseSection [] [] = [] from rfl]
  exact foldl_parseSection_pieces ps []
    (fun p hp => ⟨(wfPart_unpack sep p (hwf p hp)).1,
      (wfPart_unpack sep p (hwf p hp)).2.1,
      (wfPart_unpack sep p (hwf p hp)).2.2.1,
      (wfPart_unpack sep p (hwf p hp)).2.2.2.1⟩)

theorem dictGet_fold_preserve :
    ∀ (ps : List MPart) (d : List (Bytes × MPValue)) (k : Bytes),
      (∀ q ∈ ps, q.name ≠ k) →
      dictGet (ps.foldl insertPart d) k = dictGet d k := by
  intro ps
  induction ps with
  | nil => intro d k _; rfl
  | cons q ps2 ih =>
    intro d k h
    simp only [List.foldl_cons]
    rw [ih _ k (fun r hr => h r (by simp [hr]))]
    simp only [insertPart]
    exact dictGet_insert_ne q.name k (mkValue q) d (Ne.symm (h q (by simp)))

theorem dictGet_fold_mem :
    ∀ (ps : List MPart) (d : List (Bytes × MPValue)) (p : MPart),
      p ∈ ps → (ps.map MPart.name).Nodup →
      dictGet (ps.foldl insertPart d) p.name = some (mkValue p) := by
  intro ps
  induction ps with
  | nil => intro d p hp _; simp at hp
  | cons q ps2 ih =>
    intro d p hp hnd
    simp only [List.map_cons, List.nodup_cons] at hnd
    obtain ⟨hq_nin, hnd2⟩ := hnd
    simp only [List.foldl_cons]
    rcases List.mem_cons.mp hp with he | hm
    · subst he
      rw [dictGet_fold_preserve ps2 _ p.name ?_]
      · simp only [insertPart]
        exact dictGet_insert_self p.name (mkValue p) d
      · intro r hr e
        exact hq_nin (e ▸ List.mem_map_of_mem MPart.name hr)
    · exact ih _ p hm hnd2

/-- C5 (amended): for every boundary and every list of parts with
representable names and filenames, content ending in a byte that survives both
trailing strips, pairwise distinct names, and no boundary occurrence inside
the pieces, parse_multipart applied to the assembled multipart body maps each
field name to exactly its original content bytes and filename. -/
theorem c5_parse_multipart_roundtrip :
    ∀ (sep : Bytes) (ps : List MPart),
      sep ≠ [] →
      (∀ p ∈ ps, wfPart sep p = true) →
      noSepAny sep ([45, 45] ++ [13, 10]) = true →
      (ps.map MPart.name).Nodup →
      ∀ p ∈ ps,
        (dictGet (parse_multipart (mkBody sep ps) sep) p.name).map
          (fun v => (v.content, v.filename)) = some (p.content, p.filename) := by
  intro sep ps hsep hwf htail hnd p hp
  rw [parse_mkBody sep hsep ps hwf htail]
  rw [dictGet_fold_mem ps [] p hp hnd]
  rfl

/-- C5 (amended) witness: a one-part body with name file, filename a.ttf and
content FONT round-trips through parse_multipart. -/
theorem c5_parse_multipart_roundtrip_witness :
    (dictGet (parse_multipart (mkBody wSep [wPart]) wSep) wPart.name).map
      (fun v => (v.content, v.filename)) = some (wPart.content, wPart.filename) :=
  c5_parse_multipart_roundtrip wSep [wPart] (by decide) (by decide) (by decide)
    (by decide) wPart (by decide)
